import Mathlib

/-!
Shallow embedding of the warehouse packing core of `corexy-frontend`
(`src/utils/packingAlgorithm.ts`, the `PackingAlgorithm` class), together
with proofs about the claims of the specification.

JS numbers are modelled as `Int` (all arithmetic in the core is integral),
coordinate-keyed `Map`s as association lists keyed by the coordinate pair
(the source uses the injective string key `x,y`), and the two unbounded
search loops take an explicit fuel argument; fuel exhaustion is mapped to
the same result as frontier exhaustion ("no path" for the A* search, the
direct fallback for the BFS search).  `Math.random`-driven choices are
threaded as an explicit function `rand : Nat → Nat`, used modulo the
range the source draws from.
-/

namespace Warehouse

structure Position where
  x : Int
  y : Int
deriving DecidableEq, Repr

structure Box where
  id : Nat
  width : Int
  height : Int
  x : Int
  y : Int
  isRotated : Bool
  isPacked : Bool
deriving DecidableEq, Repr

structure WarehouseConfig where
  storageWidth : Int
  storageLength : Int
  clearance : Int
deriving DecidableEq, Repr

/-- A packed box's bounds expanded by `clearance` on all four sides. -/
structure Obstacle where
  x : Int
  y : Int
  width : Int
  height : Int
deriving DecidableEq, Repr

/-- The fixed movement step size (`private step = 10`). -/
def step : Int := 10

def inflate (cfg : WarehouseConfig) (b : Box) : Obstacle :=
  ⟨b.x - cfg.clearance, b.y - cfg.clearance,
   b.width + 2 * cfg.clearance, b.height + 2 * cfg.clearance⟩

/-- Association-list lookup for coordinate-keyed maps (JS `Map.get`). -/
def mget {α : Type} : List (Position × α) → Position → Option α
  | [], _ => none
  | (k, v) :: rest, p => if k = p then some v else mget rest p

/-- Association-list update for coordinate-keyed maps (JS `Map.set`). -/
def mset {α : Type} : List (Position × α) → Position → α → List (Position × α)
  | [], p, v => [(p, v)]
  | (k, w) :: rest, p, v =>
    if k = p then (p, v) :: rest else (k, w) :: mset rest p v

/-- Insert into the ascending-priority list after all entries of smaller or
equal priority: the behaviour of `push` followed by a stable ascending sort
in the source's `PriorityQueue.enqueue`; `dequeue` is `shift`, i.e. head. -/
def pqInsert (e : Int × Position) : List (Int × Position) → List (Int × Position)
  | [] => [e]
  | f :: rest => if f.1 ≤ e.1 then f :: pqInsert e rest else e :: f :: rest

inductive Edge
  | left
  | right
  | top
  | bottom
deriving DecidableEq, Repr

/-- `heuristic(pos, targetEdge, boxWidth, boxHeight)`. -/
def heuristic (cfg : WarehouseConfig) (pos : Position) (edge : Edge) (w h : Int) : Int :=
  match edge with
  | .left => pos.x
  | .right => cfg.storageWidth - (pos.x + w)
  | .top => pos.y
  | .bottom => cfg.storageLength - (pos.y + h)

/-- The `distances` record of `findRetrievalPath`, as a function of the edge. -/
def edgeDist (cfg : WarehouseConfig) (b : Box) (edge : Edge) : Int :=
  heuristic cfg ⟨b.x, b.y⟩ edge b.width b.height

/-- `Object.keys(distances).reduce(...)`: fold over `left, right, top, bottom`
keeping the strictly smaller side, so ties pick the later key. -/
def nearestEdge (cfg : WarehouseConfig) (b : Box) : Edge :=
  [Edge.right, Edge.top, Edge.bottom].foldl
    (fun a e => if edgeDist cfg b a < edgeDist cfg b e then a else e) Edge.left

/-- The exit test of the retrieval search for the chosen edge. -/
def isExit (cfg : WarehouseConfig) (edge : Edge) (pos : Position) (w h : Int) : Bool :=
  match edge with
  | .left => decide (pos.x ≤ 0)
  | .right => decide (pos.x + w ≥ cfg.storageWidth)
  | .top => decide (pos.y ≤ 0)
  | .bottom => decide (pos.y + h ≥ cfg.storageLength)

/-- Direction priority per chosen edge in the retrieval search. -/
def dirs (edge : Edge) : List Position :=
  match edge with
  | .left => [⟨-step, 0⟩, ⟨0, -step⟩, ⟨0, step⟩, ⟨step, 0⟩]
  | .right => [⟨step, 0⟩, ⟨0, -step⟩, ⟨0, step⟩, ⟨-step, 0⟩]
  | .top => [⟨0, -step⟩, ⟨-step, 0⟩, ⟨step, 0⟩, ⟨0, step⟩]
  | .bottom => [⟨0, step⟩, ⟨-step, 0⟩, ⟨step, 0⟩, ⟨0, -step⟩]

/-- AABB test of a box of size `w × h` at `pos` against one inflated obstacle. -/
def hitsObstacle (pos : Position) (w h : Int) (o : Obstacle) : Bool :=
  decide (pos.x + w > o.x) && decide (pos.x < o.x + o.width) &&
  decide (pos.y + h > o.y) && decide (pos.y < o.y + o.height)

/-- State of the A* retrieval search. -/
structure AState where
  queue : List (Int × Position)
  visited : List Position
  parent : List (Position × Position)
  gScore : List (Position × Int)

/-- `gScore.get(key) || 0`: a missing entry reads as 0 (an entry 0 also reads
as 0, so this is a plain default). -/
def mgetD (m : List (Position × Int)) (p : Position) (d : Int) : Int :=
  (mget m p).getD d

/-- Decides `t < (gScore.get(key) || Infinity)`: a missing entry — and, by the
JS falsy-zero quirk, an entry equal to 0 — reads as `Infinity`. -/
def ltGInf (m : List (Position × Int)) (p : Position) (t : Int) : Bool :=
  match mget m p with
  | none => true
  | some g => if g = 0 then true else decide (t < g)

/-- One neighbour expansion of the A* retrieval search. -/
def stepNeighbor (cfg : WarehouseConfig) (w h : Int) (obstacles : List Obstacle)
    (edge : Edge) (current : Position) (st : AState) (dir : Position) : AState :=
  let neighbor : Position := ⟨current.x + dir.x, current.y + dir.y⟩
  if neighbor ∈ st.visited then st
  else
    let tentative := mgetD st.gScore current 0 + step
    let inBounds := decide (neighbor.x ≥ -w) && decide (neighbor.x ≤ cfg.storageWidth) &&
                    decide (neighbor.y ≥ -h) && decide (neighbor.y ≤ cfg.storageLength)
    if !inBounds then st
    else
      let inside := decide (neighbor.x ≥ 0) && decide (neighbor.x ≤ cfg.storageWidth - w) &&
                    decide (neighbor.y ≥ 0) && decide (neighbor.y ≤ cfg.storageLength - h)
      let collision := inside && obstacles.any (hitsObstacle neighbor w h)
      if collision then st
      else if ltGInf st.gScore neighbor tentative then
        { st with
          parent := mset st.parent neighbor current,
          gScore := mset st.gScore neighbor tentative,
          queue := pqInsert (tentative + heuristic cfg neighbor edge w h, neighbor) st.queue }
      else st

/-- Path reconstruction by walking the parent map (`while (currentPos) { path.unshift ... }`),
bounded by fuel; under the search invariants the chain always ends within fuel. -/
def recon (parent : List (Position × Position)) : Nat → Position → List Position → List Position
  | 0, p, acc => p :: acc
  | fuel + 1, p, acc =>
    match mget parent p with
    | none => p :: acc
    | some q => recon parent fuel q (p :: acc)

/-- The A* loop of `findRetrievalPath`. -/
def astarLoop (cfg : WarehouseConfig) (w h : Int) (obstacles : List Obstacle)
    (edge : Edge) : Nat → AState → Option (List Position)
  | 0, _ => none
  | fuel + 1, st =>
    match st.queue with
    | [] => none
    | (_, current) :: rest =>
      if current ∈ st.visited then
        astarLoop cfg w h obstacles edge fuel { st with queue := rest }
      else
        let st1 : AState := { st with queue := rest, visited := current :: st.visited }
        if isExit cfg edge current w h then
          some (recon st1.parent (mgetD st1.gScore current 0).toNat current [])
        else
          astarLoop cfg w h obstacles edge fuel
            ((dirs edge).foldl (stepNeighbor cfg w h obstacles edge current) st1)

/-- `findRetrievalPath(targetBox, currentPositions)`. -/
def findRetrievalPath (cfg : WarehouseConfig) (fuel : Nat) (targetBox : Box)
    (currentPositions : List Box) : Option (List Position) :=
  let obstacles := (currentPositions.filter
    (fun b => (b.id != targetBox.id) && b.isPacked)).map (inflate cfg)
  let edge := nearestEdge cfg targetBox
  let startPos : Position := ⟨targetBox.x, targetBox.y⟩
  astarLoop cfg targetBox.width targetBox.height obstacles edge fuel
    { queue := [(heuristic cfg startPos edge targetBox.width targetBox.height, startPos)],
      visited := [], parent := [], gScore := [(startPos, 0)] }

/-- State of the BFS packing search. -/
structure BState where
  queue : List Position
  visited : List Position
  parent : List (Position × Position)

/-- BFS neighbour order (fixed, independent of any edge). -/
def dirs4 : List Position := [⟨-step, 0⟩, ⟨step, 0⟩, ⟨0, -step⟩, ⟨0, step⟩]

/-- One neighbour expansion of the BFS packing search. -/
def bfsNeighbor (cfg : WarehouseConfig) (w h : Int) (obstacles : List Obstacle)
    (current : Position) (st : BState) (dir : Position) : BState :=
  let neighbor : Position := ⟨current.x + dir.x, current.y + dir.y⟩
  if neighbor ∈ st.visited then st
  else if decide (neighbor.x < 0) || decide (neighbor.x > cfg.storageWidth - w) ||
          decide (neighbor.y < 0) || decide (neighbor.y > cfg.storageLength - h) then st
  else if obstacles.any (hitsObstacle neighbor w h) then st
  else
    { queue := st.queue ++ [neighbor],
      visited := neighbor :: st.visited,
      parent := mset st.parent neighbor current }

/-- One axis update of the fallback loop:
`if (p < t) p = min(p+step, t); if (p > t) p = max(p-step, t)`. -/
def fallbackMove (cur target : Int) : Int :=
  if cur < target then min (cur + step) target
  else if cur > target then max (cur - step) target
  else cur

/-- The loop body of the fallback direct path, structurally recursive on a
fuel that bounds the remaining Manhattan distance; every step strictly
decreases that distance, so with fuel equal to it the loop runs exactly as
the source's unbounded `while`. -/
def fallbackGo (tx ty : Int) : Nat → Int → Int → List Position
  | 0, _, _ => []
  | n + 1, px, py =>
    if px = tx ∧ py = ty then []
    else
      let px' := fallbackMove px tx
      let py' := fallbackMove py ty
      ⟨px', py'⟩ :: fallbackGo tx ty n px' py'

/-- The fallback direct path of `findPackingPath`: greedy per-axis stepping,
clamped, positions recorded after each double-axis update. -/
def fallbackSteps (tx ty px py : Int) : List Position :=
  fallbackGo tx ty ((tx - px).natAbs + (ty - py).natAbs) px py

/-- The full fallback path from the dock `(0, storageLength)` to `target`. -/
def fallbackPath (cfg : WarehouseConfig) (target : Position) : List Position :=
  fallbackSteps target.x target.y 0 cfg.storageLength

/-- The BFS loop of `findPackingPath`; frontier (or fuel) exhaustion falls
back to the direct path. -/
def bfsLoop (cfg : WarehouseConfig) (target : Position) (w h : Int)
    (obstacles : List Obstacle) : Nat → BState → List Position
  | 0, _ => fallbackPath cfg target
  | fuel + 1, st =>
    match st.queue with
    | [] => fallbackPath cfg target
    | current :: rest =>
      if current = target then recon st.parent st.parent.length current []
      else
        bfsLoop cfg target w h obstacles fuel
          (dirs4.foldl (bfsNeighbor cfg w h obstacles current) { st with queue := rest })

/-- `findPackingPath(targetPos, boxSize, existingBoxes)`. -/
def findPackingPath (cfg : WarehouseConfig) (fuel : Nat) (targetPos : Position)
    (w h : Int) (existingBoxes : List Box) : List Position :=
  let startPos : Position := ⟨0, cfg.storageLength⟩
  let obstacles := (existingBoxes.filter (·.isPacked)).map (inflate cfg)
  bfsLoop cfg targetPos w h obstacles fuel
    { queue := [startPos], visited := [startPos], parent := [] }

/-- The hypothetical commit of `wouldBlockRetrieval`: copy the list and update
the first box whose id matches (`tempBoxes.find(...)` then mutate). -/
def commitHyp (boxes : List Box) (bid : Nat) (pos : Position) (w h : Int) : List Box :=
  match boxes with
  | [] => []
  | b :: rest =>
    if b.id = bid then
      { b with x := pos.x, y := pos.y, width := w, height := h, isPacked := true } :: rest
    else b :: commitHyp rest bid pos w h

/-- `wouldBlockRetrieval(newPos, newSize, currentBoxId, boxes, retrievalOrder)`. -/
def wouldBlockRetrieval (cfg : WarehouseConfig) (fuel : Nat) (newPos : Position)
    (w h : Int) (currentBoxId : Nat) (boxes : List Box)
    (retrievalOrder : List Nat) : Bool :=
  let tempBoxes := commitHyp boxes currentBoxId newPos w h
  retrievalOrder.any fun boxId =>
    match tempBoxes.find? (fun b => b.id == boxId) with
    | some box => box.isPacked && (findRetrievalPath cfg fuel box tempBoxes).isNone
    | none => false

/-- `[0, step, 2*step, ...]` up to `lim` (empty for negative `lim`):
the raster values of one axis of the placement scan. -/
def rasterList (lim : Int) : List Int :=
  if lim < 0 then [] else (List.range (lim.toNat / 10 + 1)).map (fun k : Nat => (k : Int) * 10)

/-- Candidate positions in scan order: `y` outer, `x` inner. -/
def candidatePositions (cfg : WarehouseConfig) (w h : Int) : List Position :=
  (rasterList (cfg.storageLength - h)).flatMap
    (fun y => (rasterList (cfg.storageWidth - w)).map (fun x => ⟨x, y⟩))

/-- The commit-time collision check: for each recorded packed position, look
up the packed box at exactly that position and test AABB overlap with a
single clearance margin. -/
def collidesAt (cfg : WarehouseConfig) (boxes : List Box)
    (packedPositions : List Position) (pos : Position) (w h : Int) : Bool :=
  packedPositions.any fun p =>
    match boxes.find? (fun e => e.isPacked && e.x == p.x && e.y == p.y) with
    | some e =>
      decide (pos.x < e.x + e.width + cfg.clearance) &&
      decide (pos.x + w + cfg.clearance > e.x) &&
      decide (pos.y < e.y + e.height + cfg.clearance) &&
      decide (pos.y + h + cfg.clearance > e.y)
    | none => false

structure Orient where
  w : Int
  h : Int
  rot : Bool
deriving DecidableEq, Repr

/-- The placement scan for one box: both orientations, raster order, first
candidate that passes the collision check and the feasibility oracle. -/
def tryPlaceScan (cfg : WarehouseConfig) (fuel : Nat) (boxes : List Box)
    (packedPositions : List Position) (order : List Nat) (b : Box) :
    Option (Position × Orient) :=
  [(⟨b.width, b.height, false⟩ : Orient), ⟨b.height, b.width, true⟩].findSome? fun o =>
    (candidatePositions cfg o.w o.h).findSome? fun pos =>
      if collidesAt cfg boxes packedPositions pos o.w o.h then none
      else if wouldBlockRetrieval cfg fuel pos o.w o.h b.id boxes order then none
      else some (pos, o)

structure PackState where
  boxes : List Box
  packedPositions : List Position
  packingPaths : List (Nat × List Position)

/-- Processing of the box at index `i` in the main packing loop. -/
def packStep (cfg : WarehouseConfig) (fuel : Nat) (order : List Nat)
    (st : PackState) (i : Nat) : PackState :=
  match st.boxes.get? i with
  | none => st
  | some b =>
    match tryPlaceScan cfg fuel st.boxes st.packedPositions order b with
    | none => st
    | some (pos, o) =>
      let b' : Box := { b with x := pos.x, y := pos.y, width := o.w, height := o.h,
                               isRotated := o.rot, isPacked := true }
      let boxes' := st.boxes.set i b'
      let path := findPackingPath cfg fuel pos o.w o.h (boxes'.take i)
      { boxes := boxes',
        packedPositions := st.packedPositions ++ [pos],
        packingPaths := (b.id, path) :: st.packingPaths }

/-- The packing loop over boxes in ascending index order. -/
def packLoopGo (cfg : WarehouseConfig) (fuel : Nat) (order : List Nat) :
    Nat → Nat → PackState → PackState
  | _, 0, st => st
  | i, rem + 1, st => packLoopGo cfg fuel order (i + 1) rem (packStep cfg fuel order st i)

/-- `listSwap l i j` exchanges the entries at indices `i` and `j`. -/
def listSwap (l : List Nat) (i j : Nat) : List Nat :=
  match l.get? i, l.get? j with
  | some a, some b => (l.set i b).set j a
  | _, _ => l

/-- Indices `n-1, n-2, ..., 1` walked by the Fisher–Yates loop. -/
def fyIndices (n : Nat) : List Nat := (List.range' 1 (n - 1)).reverse

def fyGo (rand : Nat → Nat) : List Nat → List Nat → List Nat
  | [], l => l
  | i :: is', l => fyGo rand is' (listSwap l i (rand i % (i + 1)))

/-- The Fisher–Yates shuffle of `packBoxes`, with the random draw
`Math.floor(Math.random() * (i + 1))` supplied by `rand i % (i + 1)`. -/
def fisherYates (l : List Nat) (rand : Nat → Nat) : List Nat :=
  fyGo rand (fyIndices l.length) l

/-- Association-list lookup keyed by box id (JS object indexing). -/
def lookupN {α : Type} : List (Nat × α) → Nat → Option α
  | [], _ => none
  | (k, v) :: rest, n => if k = n then some v else lookupN rest n

/-- The final loop of `packBoxes`: retrieval paths for every packed box in
retrieval order, omitting ids whose search returns no path. -/
def buildRetrievalPaths (cfg : WarehouseConfig) (fuel : Nat) (boxes : List Box) :
    List Nat → List (Nat × List Position)
  | [] => []
  | bid :: rest =>
    match boxes.find? (fun b => b.id == bid) with
    | some b =>
      if b.isPacked then
        match findRetrievalPath cfg fuel b boxes with
        | some path => (bid, path) :: buildRetrievalPaths cfg fuel boxes rest
        | none => buildRetrievalPaths cfg fuel boxes rest
      else buildRetrievalPaths cfg fuel boxes rest
    | none => buildRetrievalPaths cfg fuel boxes rest

structure PackingResult where
  boxes : List Box
  packingPaths : List (Nat × List Position)
  retrievalPaths : List (Nat × List Position)
  retrievalOrder : List Nat
deriving DecidableEq, Repr

/-- `packBoxes(boxes)`. -/
def packBoxes (cfg : WarehouseConfig) (fuel : Nat) (rand : Nat → Nat)
    (boxes : List Box) : PackingResult :=
  let order := fisherYates (List.range boxes.length) rand
  let st := packLoopGo cfg fuel order 0 boxes.length
    { boxes := boxes, packedPositions := [], packingPaths := [] }
  { boxes := st.boxes,
    packingPaths := st.packingPaths,
    retrievalPaths := buildRetrievalPaths cfg fuel st.boxes order,
    retrievalOrder := order }

/-- `calculateStorageDensity(packedBoxes)`, with the JS float division read
as exact rational division. -/
def calculateStorageDensity (cfg : WarehouseConfig) (packedBoxes : List Box) : ℚ :=
  let totalArea : ℚ := (cfg.storageWidth : ℚ) * (cfg.storageLength : ℚ)
  let occupiedArea : ℚ :=
    ((packedBoxes.filter (·.isPacked)).map (fun b => ((b.width * b.height : Int) : ℚ))).sum
  occupiedArea / totalArea * 100

/-! ### Derived predicates used in claim statements -/

/-- Overlap of two obstacle rectangles (strict AABB intersection). -/
def obstaclesOverlap (o1 o2 : Obstacle) : Prop :=
  o1.x < o2.x + o2.width ∧ o2.x < o1.x + o1.width ∧
  o1.y < o2.y + o2.height ∧ o2.y < o1.y + o1.height

instance (o1 o2 : Obstacle) : Decidable (obstaclesOverlap o1 o2) := by
  unfold obstaclesOverlap; infer_instance

/-- The two boxes' un-inflated bounds are separated by at least `c` along
some axis: the guarantee actually enforced by the commit-time collision
check of `packBoxes`. -/
def sepAtLeast (c : Int) (a b : Box) : Prop :=
  b.x + b.width + c ≤ a.x ∨ a.x + a.width + c ≤ b.x ∨
  b.y + b.height + c ≤ a.y ∨ a.y + a.height + c ≤ b.y

instance (c : Int) (a b : Box) : Decidable (sepAtLeast c a b) := by
  unfold sepAtLeast; infer_instance

/-! ### Search invariants -/

/-- `p` reaches `start` in `k` hops of the parent map. -/
inductive ReachesStart (m : List (Position × Position)) (start : Position) :
    Position → Nat → Prop
  | base : mget m start = none → ReachesStart m start start 0
  | hop {p q : Position} {k : Nat} : mget m p = some q → ReachesStart m start q k →
      ReachesStart m start p (k + 1)

/-- Invariant of the A* retrieval search state. -/
structure AInv (start : Position) (st : AState) : Prop where
  startVisited : start ∈ st.visited
  startNoParent : mget st.parent start = none
  startG : mget st.gScore start = some 0
  parentChain : ∀ p q, mget st.parent p = some q → q = start ∨ mget st.parent q ≠ none
  parentG : ∀ p q, mget st.parent p = some q →
    ∃ gp gq, mget st.gScore p = some gp ∧ mget st.gScore q = some gq ∧ gq + step ≤ gp
  gNonneg : ∀ p g, mget st.gScore p = some g → 0 ≤ g
  gZero : ∀ p, mget st.gScore p = some 0 → p = start
  queueChain : ∀ pr p, (pr, p) ∈ st.queue → p = start ∨ mget st.parent p ≠ none

/-- Invariant of the BFS packing search state. -/
structure BInv (start : Position) (st : BState) : Prop where
  startVisited : start ∈ st.visited
  startNoParent : mget st.parent start = none
  parentInVisited : ∀ p, mget st.parent p ≠ none → p ∈ st.visited
  parentChainB : ∀ p, mget st.parent p ≠ none →
    ∃ k, ReachesStart st.parent start p k ∧ k ≤ st.parent.length
  queueChainB : ∀ p ∈ st.queue, p = start ∨ mget st.parent p ≠ none

/-- Separation guard between two possibly-unpacked boxes. -/
def packedGuard (cfg : WarehouseConfig) (b1 b2 : Box) : Prop :=
  b1.isPacked = true → b2.isPacked = true → sepAtLeast cfg.clearance b1 b2

/-- The unit grid cells covered by a box. -/
def boxCells (b : Box) : Finset (ℤ × ℤ) :=
  Finset.Ico b.x (b.x + b.width) ×ˢ Finset.Ico b.y (b.y + b.height)

/-- The union of the cells of a list of boxes. -/
def cellsOf : List Box → Finset (ℤ × ℤ)
  | [] => ∅
  | b :: rest => boxCells b ∪ cellsOf rest

/-- Invariant of the packing loop after the first `i` boxes were processed,
for an input list whose boxes are all unpacked with positive dimensions. -/
structure LoopInv (cfg : WarehouseConfig) (input : List Box) (i : Nat) (st : PackState) :
    Prop where
  len : st.boxes.length = input.length
  suffix : ∀ j, i ≤ j → st.boxes.get? j = input.get? j
  unpackedKeep : ∀ j b, st.boxes.get? j = some b → b.isPacked = false → input.get? j = some b
  ids : st.boxes.map (·.id) = input.map (·.id)
  packedBounds : ∀ b ∈ st.boxes, b.isPacked = true →
    0 ≤ b.x ∧ b.x + b.width ≤ cfg.storageWidth ∧ 0 ≤ b.y ∧
    b.y + b.height ≤ cfg.storageLength ∧ 0 < b.width ∧ 0 < b.height
  pairwiseSep : List.Pairwise (packedGuard cfg) st.boxes
  positions : ∀ q, q ∈ st.packedPositions ↔
    ∃ j b, st.boxes.get? j = some b ∧ b.isPacked = true ∧ q = (⟨b.x, b.y⟩ : Position)
  pathsVal : ∀ bid p, lookupN st.packingPaths bid = some p →
    ∃ j b, st.boxes.get? j = some b ∧ b.isPacked = true ∧ b.id = bid ∧
      p ≠ [] ∧ p.getLast? = some ⟨b.x, b.y⟩ ∧
      (p.head? = some ⟨0, cfg.storageLength⟩ ∨ (⟨0, cfg.storageLength⟩ : Position) ∉ p)

theorem sepAtLeast_symm {c : Int} {a b : Box} (h : sepAtLeast c a b) : sepAtLeast c b a := by
  unfold sepAtLeast at h ⊢; tauto

/-! ### C5: the feasibility oracle -/

/-- C5: `wouldBlockRetrieval(newPos, newSize, currentBoxId, boxes, retrievalOrder)`
returns true iff, in the hypothetical state obtained by copying the box list and
committing box `currentBoxId` at `newPos` with the new size as packed, some box id
in the retrieval order whose box is packed in that state has no retrieval path
against the obstacles derived from the other packed boxes of that state. -/
theorem c5_wouldBlockRetrieval_iff (cfg : WarehouseConfig) (fuel : Nat) (newPos : Position)
    (w h : Int) (currentBoxId : Nat) (boxes : List Box) (order : List Nat) :
    wouldBlockRetrieval cfg fuel newPos w h currentBoxId boxes order = true ↔
      ∃ bid ∈ order, ∃ b,
        (commitHyp boxes currentBoxId newPos w h).find? (fun e => e.id == bid) = some b ∧
        b.isPacked = true ∧
        findRetrievalPath cfg fuel b (commitHyp boxes currentBoxId newPos w h) = none := by
  simp only [wouldBlockRetrieval, List.any_eq_true]
  constructor
  · rintro ⟨bid, hmem, hval⟩
    refine ⟨bid, hmem, ?_⟩
    rcases hfind : (commitHyp boxes currentBoxId newPos w h).find? (fun e => e.id == bid)
      with _ | b
    · rw [hfind] at hval; simp at hval
    · rw [hfind] at hval
      simp only [Bool.and_eq_true, Option.isNone_iff_eq_none] at hval
      exact ⟨b, hfind, hval.1, hval.2⟩
  · rintro ⟨bid, hmem, b, hfind, hpacked, hnone⟩
    refine ⟨bid, hmem, ?_⟩
    rw [hfind]
    simp [hpacked, hnone]

/-! ### C6: the retrieval order is a permutation -/

theorem cons_set_perm (x : Nat) : ∀ (xs : List Nat) (m : Nat) (b : Nat),
    xs.get? m = some b → List.Perm (b :: xs.set m x) (x :: xs) := by
  intro xs
  induction xs with
  | nil => intro m b hm; simp at hm
  | cons y ys ih =>
    intro m b hm
    cases m with
    | zero =>
      simp only [List.get?] at hm
      injection hm with hm; subst hm
      simpa [List.set] using List.Perm.swap x y ys
    | succ m =>
      simp only [List.get?] at hm
      have h1 : List.Perm (b :: y :: ys.set m x) (y :: b :: ys.set m x) :=
        List.Perm.swap y b _
      have h2 : List.Perm (y :: b :: ys.set m x) (y :: x :: ys) :=
        (ih m b hm).cons y
      have h3 : List.Perm (y :: x :: ys) (x :: y :: ys) := List.Perm.swap x y ys
      simpa [List.set] using (h1.trans h2).trans h3

theorem set_set_perm : ∀ (l : List Nat) (i j a b : Nat), l.get? i = some a →
    l.get? j = some b → List.Perm ((l.set i b).set j a) l := by
  intro l
  induction l with
  | nil => intro i j a b hi _; simp at hi
  | cons x xs ih =>
    intro i j a b hi hj
    cases i with
    | zero =>
      simp only [List.get?] at hi
      injection hi with hi; subst hi
      cases j with
      | zero =>
        simp only [List.get?] at hj
        injection hj with hj; subst hj
        simp [List.set]
      | succ m =>
        simp only [List.get?] at hj
        simpa [List.set] using cons_set_perm x xs m b hj
    | succ m =>
      simp only [List.get?] at hi
      cases j with
      | zero =>
        simp only [List.get?] at hj
        injection hj with hj; subst hj
        simpa [List.set] using cons_set_perm x xs m a hi
      | succ k =>
        simp only [List.get?] at hj
        simpa [List.set] using (ih m k a b hi hj).cons x

theorem listSwap_perm (l : List Nat) (i j : Nat) : List.Perm (listSwap l i j) l := by
  unfold listSwap
  rcases hi : l.get? i with _ | a <;> rcases hj : l.get? j with _ | b <;>
    simp only []
  · exact List.Perm.refl l
  · exact List.Perm.refl l
  · exact List.Perm.refl l
  · exact set_set_perm l i j a b hi hj

theorem fyGo_perm (rand : Nat → Nat) : ∀ (idxs l : List Nat),
    List.Perm (fyGo rand idxs l) l := by
  intro idxs
  induction idxs with
  | nil => intro l; exact List.Perm.refl l
  | cons i rest ih => intro l; exact (ih _).trans (listSwap_perm l i _)

/-- C6: the retrieval order of any `packBoxes` result is a permutation of
`0..n-1` for an `n`-box input, independent of which boxes end up packed. -/
theorem c6_retrieval_order_perm (cfg : WarehouseConfig) (fuel : Nat) (rand : Nat → Nat)
    (boxes : List Box) :
    List.Perm (packBoxes cfg fuel rand boxes).retrievalOrder (List.range boxes.length) := by
  show List.Perm (fisherYates (List.range boxes.length) rand) (List.range boxes.length)
  unfold fisherYates
  exact fyGo_perm rand _ _

/-! ### C10: Scenario A -/

/-- C10: with a 100 × 100 storage, clearance 0 and a single unpacked 50 × 50
box with id 0, `packBoxes` commits the box at (0, 0) (the first raster
candidate), and its retrieval path is the single position (0, 0). -/
theorem c10_scenario_a :
    ∀ rand : Nat → Nat,
      (packBoxes ⟨100, 100, 0⟩ 100 rand [⟨0, 50, 50, 0, 0, false, false⟩]).boxes =
        [⟨0, 50, 50, 0, 0, false, true⟩] ∧
      lookupN (packBoxes ⟨100, 100, 0⟩ 100 rand
        [⟨0, 50, 50, 0, 0, false, false⟩]).retrievalPaths 0 = some [⟨0, 0⟩] :=
  fun _ => ⟨rfl, rfl⟩

/-! ### C2: packing path endpoints -/

/-- C2 counterexample: in Scenario A the committed box's packing path exists
but begins at (0, 90), one step away from the dock (0, storageLength) =
(0, 100) — the BFS dies immediately (box height 50 > step) and the greedy
fallback path never contains the dock. -/
theorem c2_counterexample :
    (lookupN (packBoxes ⟨100, 100, 0⟩ 100 (fun _ => 0)
        [⟨0, 50, 50, 0, 0, false, false⟩]).packingPaths 0).map (fun p => p.head?) =
      some (some ⟨0, 90⟩) ∧
    (⟨0, 90⟩ : Position) ≠ ⟨0, 100⟩ := ⟨by decide, by decide⟩

/-! ### C1: separation of committed boxes -/

/-- C1 counterexample: with a 120 × 100 storage, clearance 10, and two
unpacked 50 × 50 boxes, `packBoxes` commits them at (0, 0) and (60, 0) —
only 10 apart, so the two clearance-inflated rectangles overlap. -/
theorem c1_counterexample :
    ((packBoxes ⟨120, 100, 10⟩ 300 (fun _ => 0)
        [⟨0, 50, 50, 0, 0, false, false⟩, ⟨1, 50, 50, 0, 0, false, false⟩]).boxes =
      [⟨0, 50, 50, 0, 0, false, true⟩, ⟨1, 50, 50, 60, 0, false, true⟩]) ∧
    obstaclesOverlap (inflate ⟨120, 100, 10⟩ ⟨0, 50, 50, 0, 0, false, true⟩)
      (inflate ⟨120, 100, 10⟩ ⟨1, 50, 50, 60, 0, false, true⟩) := ⟨by decide, by decide⟩

/-! ### Fallback-path lemmas -/

theorem fallbackMove_closer_le (c t : Int) :
    (t - fallbackMove c t).natAbs ≤ (t - c).natAbs := by
  simp only [fallbackMove, step, Int.min_def, Int.max_def]
  split_ifs <;> omega

theorem fallbackMove_closer_lt (c t : Int) (h : c ≠ t) :
    (t - fallbackMove c t).natAbs < (t - c).natAbs := by
  simp only [fallbackMove, step, Int.min_def, Int.max_def]
  split_ifs <;> omega

theorem fallbackMove_y_bound (c t lim : Int) (h1 : t ≤ c) (h2 : c ≤ lim) (h3 : t < lim) :
    fallbackMove c t < lim ∧ t ≤ fallbackMove c t := by
  simp only [fallbackMove, step, Int.min_def, Int.max_def]
  split_ifs <;> omega

theorem fallbackGo_y_lt (tx ty lim : Int) (hty : ty < lim) :
    ∀ (n : Nat) (px py : Int), ty ≤ py → py ≤ lim →
      ∀ p ∈ fallbackGo tx ty n px py, p.y < lim := by
  intro n
  induction n with
  | zero => intro px py _ _ p hp; simp [fallbackGo] at hp
  | succ n ih =>
    intro px py h1 h2 p hp
    by_cases hc : px = tx ∧ py = ty
    · simp [fallbackGo, hc] at hp
    · rw [fallbackGo, if_neg hc] at hp
      have hb := fallbackMove_y_bound py ty lim h1 h2 hty
      rcases List.mem_cons.mp hp with h | h
      · subst h; exact hb.1
      · exact ih _ _ hb.2 (le_of_lt hb.1) p h

theorem fallbackGo_at_target (tx ty : Int) (n : Nat) (px py : Int)
    (hc : px = tx ∧ py = ty) : fallbackGo tx ty n px py = [] := by
  cases n <;> simp [fallbackGo, hc]

theorem fallbackGo_ne_nil (tx ty : Int) (n : Nat) (px py : Int)
    (hm : (tx - px).natAbs + (ty - py).natAbs ≤ n) (hc : ¬(px = tx ∧ py = ty)) :
    fallbackGo tx ty n px py ≠ [] := by
  cases n with
  | zero => exact absurd (by constructor <;> omega) hc
  | succ n => rw [fallbackGo, if_neg hc]; simp

theorem fallbackGo_getLast (tx ty : Int) :
    ∀ (n : Nat) (px py : Int), (tx - px).natAbs + (ty - py).natAbs ≤ n →
      ¬(px = tx ∧ py = ty) →
      (fallbackGo tx ty n px py).getLast? = some ⟨tx, ty⟩ := by
  intro n
  induction n with
  | zero => intro px py hm hc; exact absurd (by constructor <;> omega) hc
  | succ n ih =>
    intro px py hm hc
    rw [fallbackGo, if_neg hc]
    have hlt : (tx - fallbackMove px tx).natAbs + (ty - fallbackMove py ty).natAbs ≤ n := by
      rcases not_and_or.mp hc with h' | h'
      · have l1 := fallbackMove_closer_lt px tx h'
        have l2 := fallbackMove_closer_le py ty
        omega
      · have l1 := fallbackMove_closer_le px tx
        have l2 := fallbackMove_closer_lt py ty h'
        omega
    show ((⟨fallbackMove px tx, fallbackMove py ty⟩ : Position) ::
      fallbackGo tx ty n (fallbackMove px tx) (fallbackMove py ty)).getLast? =
      some ⟨tx, ty⟩
    by_cases hc' : fallbackMove px tx = tx ∧ fallbackMove py ty = ty
    · rw [fallbackGo_at_target tx ty n _ _ hc']
      simp [hc'.1, hc'.2]
    · rcases hl : fallbackGo tx ty n (fallbackMove px tx) (fallbackMove py ty) with _ | ⟨q, rest⟩
      · exact absurd hl (fallbackGo_ne_nil tx ty n _ _ hlt hc')
      · have := ih _ _ hlt hc'
        rw [hl] at this
        rw [List.getLast?_cons_cons]
        exact this

theorem fallbackSteps_getLast (tx ty px py : Int) (hc : ¬(px = tx ∧ py = ty)) :
    (fallbackSteps tx ty px py).getLast? = some ⟨tx, ty⟩ :=
  fallbackGo_getLast tx ty _ px py le_rfl hc

theorem fallbackSteps_ne_nil (tx ty px py : Int) (hc : ¬(px = tx ∧ py = ty)) :
    fallbackSteps tx ty px py ≠ [] :=
  fallbackGo_ne_nil tx ty _ px py le_rfl hc

theorem fallbackSteps_y_lt (tx ty lim px py : Int) (hty : ty < lim)
    (h1 : ty ≤ py) (h2 : py ≤ lim) : ∀ p ∈ fallbackSteps tx ty px py, p.y < lim :=
  fallbackGo_y_lt tx ty lim hty _ px py h1 h2

/-! ### C3: tall boxes always get the fallback packing path -/

theorem foldl_const {α β : Type} (f : α → β → α) (l : List β) (a : α)
    (h : ∀ st b, b ∈ l → f st b = st) : l.foldl f a = a := by
  induction l generalizing a with
  | nil => rfl
  | cons b rest ih =>
    rw [List.foldl_cons, h a b (List.mem_cons_self b rest)]
    exact ih a (fun st c hc => h st c (List.mem_cons_of_mem b hc))

theorem bfsNeighbor_out (cfg : WarehouseConfig) (w h : Int) (obstacles : List Obstacle)
    (current : Position) (st : BState) (dir : Position)
    (hout : current.x + dir.x < 0 ∨ current.x + dir.x > cfg.storageWidth - w ∨
            current.y + dir.y < 0 ∨ current.y + dir.y > cfg.storageLength - h) :
    bfsNeighbor cfg w h obstacles current st dir = st := by
  unfold bfsNeighbor
  by_cases hv : (⟨current.x + dir.x, current.y + dir.y⟩ : Position) ∈ st.visited
  · simp [hv]
  · have hb : (decide (current.x + dir.x < 0) ||
        decide (current.x + dir.x > cfg.storageWidth - w) ||
        decide (current.y + dir.y < 0) ||
        decide (current.y + dir.y > cfg.storageLength - h)) = true := by
      rcases hout with h' | h' | h' | h' <;> simp [h']
    simp [hv, hb]

theorem bfsLoop_empty_queue (cfg : WarehouseConfig) (target : Position) (w h : Int)
    (obstacles : List Obstacle) (fuel : Nat) (st : BState) (hq : st.queue = []) :
    bfsLoop cfg target w h obstacles fuel st = fallbackPath cfg target := by
  cases fuel with
  | zero => rfl
  | succ n => rw [bfsLoop, hq]

theorem bfsLoop_cons (cfg : WarehouseConfig) (target : Position) (w h : Int)
    (obstacles : List Obstacle) (fuel : Nat) (current : Position) (rest visited : List Position)
    (parent : List (Position × Position)) (hne : current ≠ target) :
    bfsLoop cfg target w h obstacles (fuel + 1) ⟨current :: rest, visited, parent⟩ =
      bfsLoop cfg target w h obstacles fuel
        (dirs4.foldl (bfsNeighbor cfg w h obstacles current) ⟨rest, visited, parent⟩) := by
  have hstep : bfsLoop cfg target w h obstacles (fuel + 1) ⟨current :: rest, visited, parent⟩ =
      if current = target then recon parent parent.length current []
      else bfsLoop cfg target w h obstacles fuel
        (dirs4.foldl (bfsNeighbor cfg w h obstacles current) ⟨rest, visited, parent⟩) := rfl
  rw [hstep, if_neg hne]

/-- C3: whenever the box height exceeds the step size, every 4-directional
neighbour of the dock (0, storageLength) fails the BFS bounds check, so
`findPackingPath` returns the greedy fallback path for every obstacle set —
a path that is built without any collision check and that never contains
the dock position itself. -/
theorem c3_tall_box_fallback (cfg : WarehouseConfig) (fuel : Nat) (targetPos : Position)
    (w h : Int) (existingBoxes : List Box)
    (hh : step < h) (hy : targetPos.y ≤ cfg.storageLength - h) :
    findPackingPath cfg fuel targetPos w h existingBoxes = fallbackPath cfg targetPos ∧
    (⟨0, cfg.storageLength⟩ : Position) ∉ fallbackPath cfg targetPos := by
  have hstepv : step = 10 := rfl
  constructor
  · show bfsLoop cfg targetPos w h ((existingBoxes.filter (·.isPacked)).map (inflate cfg)) fuel
      ⟨[⟨0, cfg.storageLength⟩], [⟨0, cfg.storageLength⟩], []⟩ = fallbackPath cfg targetPos
    cases fuel with
    | zero => rfl
    | succ n =>
      have hne : (⟨0, cfg.storageLength⟩ : Position) ≠ targetPos := by
        intro he
        have : targetPos.y = cfg.storageLength := by rw [← he]
        omega
      rw [bfsLoop_cons cfg targetPos w h _ n _ [] _ [] hne]
      have hfold : dirs4.foldl
          (bfsNeighbor cfg w h ((existingBoxes.filter (·.isPacked)).map (inflate cfg))
            ⟨0, cfg.storageLength⟩)
          ⟨[], [⟨0, cfg.storageLength⟩], []⟩ =
          (⟨[], [⟨0, cfg.storageLength⟩], []⟩ : BState) := by
        apply foldl_const
        intro st d hd
        have hd4 : d ∈ ([⟨-step, 0⟩, ⟨step, 0⟩, ⟨0, -step⟩, ⟨0, step⟩] : List Position) := hd
        simp only [List.mem_cons, List.not_mem_nil, or_false] at hd4
        rcases hd4 with h' | h' | h' | h' <;> subst h' <;>
          apply bfsNeighbor_out <;> simp only [step] <;> omega
      rw [hfold]
      exact bfsLoop_empty_queue cfg targetPos w h _ n _ rfl
  · intro hmem
    have h2 : targetPos.y < cfg.storageLength := by omega
    have := fallbackSteps_y_lt targetPos.x targetPos.y cfg.storageLength 0
      cfg.storageLength h2 (by omega) le_rfl _ hmem
    simp at this

/-- Witness for C3 at a concrete instance. -/
theorem c3_witness :
    step < 50 ∧ (0 : Int) ≤ (100 : Int) - 50 ∧
    (findPackingPath ⟨100, 100, 0⟩ 5 ⟨0, 0⟩ 50 50 [] = fallbackPath ⟨100, 100, 0⟩ ⟨0, 0⟩ ∧
      (⟨0, 100⟩ : Position) ∉ fallbackPath ⟨100, 100, 0⟩ ⟨0, 0⟩) :=
  ⟨by decide, by decide,
   c3_tall_box_fallback ⟨100, 100, 0⟩ 5 ⟨0, 0⟩ 50 50 [] (by decide) (by decide)⟩

/-! ### Coordinate-map lemmas -/

theorem mget_mset_self {α : Type} (m : List (Position × α)) (k : Position) (v : α) :
    mget (mset m k v) k = some v := by
  induction m with
  | nil => simp [mset, mget]
  | cons e rest ih =>
    obtain ⟨k', v'⟩ := e
    by_cases hk : k' = k
    · subst hk; simp [mset, mget]
    · simp [mset, mget, hk, ih]

theorem mget_mset_ne {α : Type} (m : List (Position × α)) (k p : Position) (v : α)
    (hne : p ≠ k) : mget (mset m k v) p = mget m p := by
  have hkp : k ≠ p := Ne.symm hne
  induction m with
  | nil => simp [mset, mget, hkp]
  | cons e rest ih =>
    obtain ⟨k', v'⟩ := e
    by_cases hk : k' = k
    · subst hk
      simp [mset, mget, hkp]
    · by_cases hp : k' = p
      · subst hp; simp [mset, mget, hk]
      · simp [mset, mget, hk, hp, ih]

theorem mget_mset_some {α : Type} (m : List (Position × α)) (k p : Position) (v : α)
    (hsome : mget m p ≠ none) : mget (mset m k v) p ≠ none := by
  by_cases hp : p = k
  · subst hp; rw [mget_mset_self]; simp
  · rw [mget_mset_ne m k p v hp]; exact hsome

theorem mset_length_fresh {α : Type} (m : List (Position × α)) (k : Position) (v : α)
    (hfresh : mget m k = none) : (mset m k v).length = m.length + 1 := by
  induction m with
  | nil => rfl
  | cons e rest ih =>
    obtain ⟨k', v'⟩ := e
    by_cases hk : k' = k
    · subst hk; simp [mget] at hfresh
    · simp only [mget, if_neg hk] at hfresh
      simp [mset, hk, ih hfresh]

theorem mem_pqInsert (e f : Int × Position) (q : List (Int × Position)) :
    f ∈ pqInsert e q ↔ f = e ∨ f ∈ q := by
  induction q with
  | nil => simp [pqInsert]
  | cons g rest ih =>
    by_cases hg : g.1 ≤ e.1
    · simp only [pqInsert, if_pos hg, List.mem_cons, ih]
      try tauto
    · simp only [pqInsert, if_neg hg, List.mem_cons]
      try tauto

/-! ### Parent-chain reconstruction -/

theorem reachesStart_mset_fresh (m : List (Position × Position)) (start n q' : Position)
    (hfresh : mget m n = none) (hns : n ≠ start) :
    ∀ p k, ReachesStart m start p k → ReachesStart (mset m n q') start p k := by
  intro p k hreach
  induction hreach with
  | base hnone =>
    exact ReachesStart.base
      (by rw [mget_mset_ne m n start q' (Ne.symm hns)]; exact hnone)
  | @hop p' q'' k' hpq _ ih =>
    have hne : p' ≠ n := by
      intro he; subst he; rw [hpq] at hfresh; exact Option.noConfusion hfresh
    exact ReachesStart.hop (by rw [mget_mset_ne m n p' q' hne]; exact hpq) ih

theorem recon_chain (m : List (Position × Position)) (start : Position) :
    ∀ (k : Nat) (p : Position), ReachesStart m start p k →
      ∀ (fuel : Nat) (acc : List Position), k ≤ fuel →
        ∃ l, recon m fuel p acc = (start :: l) ++ acc ∧
          (start :: l).getLast? = some p := by
  intro k p hreach
  induction hreach with
  | base hnone =>
    intro fuel acc _
    refine ⟨[], ?_, rfl⟩
    cases fuel with
    | zero => rfl
    | succ f => simp [recon, hnone]
  | @hop p' q k' hpq hrest ih =>
    intro fuel acc hk
    cases fuel with
    | zero => omega
    | succ f =>
      have hrec : recon m (f + 1) p' acc = recon m f q (p' :: acc) := by
        simp [recon, hpq]
      obtain ⟨l, hl, hlast⟩ := ih f (p' :: acc) (by omega)
      refine ⟨l ++ [p'], ?_, ?_⟩
      · rw [hrec, hl]; simp
      · show ((start :: l) ++ [p']).getLast? = some p'
        rw [List.getLast?_concat]

/-! ### A* state invariant preservation -/

theorem chain_exists (start : Position) (st : AState) (hInv : AInv start st) :
    ∀ (g : Nat) (p : Position) (gp : Int), mget st.gScore p = some gp → gp.toNat ≤ g →
      (p = start ∨ mget st.parent p ≠ none) →
      ∃ k, ReachesStart st.parent start p k ∧ step * k ≤ gp := by
  intro g
  induction g with
  | zero =>
    intro p gp hgp _ hp
    rcases hp with rfl | hp
    · exact ⟨0, ReachesStart.base hInv.startNoParent, by
        have := hInv.gNonneg p gp hgp; simp [step]; omega⟩
    · rcases hq : mget st.parent p with _ | q
      · exact absurd hq hp
      · obtain ⟨gp', gq, hgp', hgq, hle⟩ := hInv.parentG p q hq
        rw [hgp] at hgp'
        injection hgp' with hgp'
        have h0 := hInv.gNonneg q gq hgq
        have hst : step = 10 := rfl
        omega
  | succ g ih =>
    intro p gp hgp hgle hp
    rcases hp with rfl | hp
    · exact ⟨0, ReachesStart.base hInv.startNoParent, by
        have := hInv.gNonneg p gp hgp; simp [step]; omega⟩
    · rcases hq : mget st.parent p with _ | q
      · exact absurd hq hp
      · obtain ⟨gp', gq, hgp', hgq, hle⟩ := hInv.parentG p q hq
        rw [hgp] at hgp'
        injection hgp' with hgp'
        subst hgp'
        have h0 := hInv.gNonneg q gq hgq
        have hst : step = 10 := rfl
        obtain ⟨k, hreach, hk⟩ := ih q gq hgq (by omega) (hInv.parentChain p q hq)
        refine ⟨k + 1, ReachesStart.hop hq hreach, ?_⟩
        rw [hst] at hk ⊢
        omega

theorem inv_gScore_present (start : Position) (st : AState) (hInv : AInv start st)
    (p : Position) (hp : p = start ∨ mget st.parent p ≠ none) :
    ∃ gp, mget st.gScore p = some gp := by
  rcases hp with rfl | hdom
  · exact ⟨0, hInv.startG⟩
  · rcases hq : mget st.parent p with _ | q
    · exact absurd hq hdom
    · obtain ⟨gp, gq, hgp, _, _⟩ := hInv.parentG p q hq
      exact ⟨gp, hgp⟩

theorem stepNeighbor_visited (cfg : WarehouseConfig) (w h : Int) (obst : List Obstacle)
    (edge : Edge) (current : Position) (st : AState) (dir : Position) :
    (stepNeighbor cfg w h obst edge current st dir).visited = st.visited := by
  simp only [stepNeighbor]
  split_ifs <;> rfl

theorem stepNeighbor_parent_mono (cfg : WarehouseConfig) (w h : Int) (obst : List Obstacle)
    (edge : Edge) (current : Position) (st : AState) (dir : Position) (p : Position)
    (hp : mget st.parent p ≠ none) :
    mget (stepNeighbor cfg w h obst edge current st dir).parent p ≠ none := by
  simp only [stepNeighbor]
  split_ifs <;> first
    | exact hp
    | exact mget_mset_some st.parent _ p current hp

theorem astar_update_inv (start current N : Position) (t pq : Int) (st : AState)
    (hInv : AInv start st)
    (hcur : current = start ∨ mget st.parent current ≠ none)
    (hcv : current ∈ st.visited)
    (hvisN : N ∉ st.visited)
    (ht : t = mgetD st.gScore current 0 + step)
    (hlt : ltGInf st.gScore N t = true) :
    AInv start ⟨pqInsert (pq, N) st.queue, st.visited,
      mset st.parent N current, mset st.gScore N t⟩ := by
  have hNs : N ≠ start := fun he => hvisN (by rw [he]; exact hInv.startVisited)
  have hNc : N ≠ current := fun he => hvisN (by rw [he]; exact hcv)
  obtain ⟨gc, hgc⟩ := inv_gScore_present start st hInv current hcur
  have hgc0 : 0 ≤ gc := hInv.gNonneg current gc hgc
  have htval : t = gc + step := by rw [ht]; simp [mgetD, hgc]
  have hstep : step = (10 : Int) := rfl
  have ht0 : 0 < t := by rw [htval, hstep]; omega
  refine ⟨?_, ?_, ?_, ?_, ?_, ?_, ?_, ?_⟩
  · exact hInv.startVisited
  · show mget (mset st.parent N current) start = none
    rw [mget_mset_ne st.parent N start current (Ne.symm hNs)]
    exact hInv.startNoParent
  · show mget (mset st.gScore N t) start = some 0
    rw [mget_mset_ne st.gScore N start t (Ne.symm hNs)]
    exact hInv.startG
  · -- parentChain
    intro p q hpq
    by_cases hp : p = N
    · rw [hp, mget_mset_self] at hpq
      injection hpq with hpq
      subst hpq
      rcases hcur with hc | hdom
      · exact Or.inl hc
      · exact Or.inr (mget_mset_some st.parent N current current hdom)
    · rw [mget_mset_ne st.parent N p current hp] at hpq
      rcases hInv.parentChain p q hpq with hq | hq
      · exact Or.inl hq
      · exact Or.inr (mget_mset_some st.parent N q current hq)
  · -- parentG
    intro p q hpq
    by_cases hp : p = N
    · rw [hp, mget_mset_self] at hpq
      injection hpq with hpq
      subst hpq
      refine ⟨t, gc, ?_, ?_, le_of_eq htval.symm⟩
      · rw [hp]; exact mget_mset_self st.gScore N t
      · rw [mget_mset_ne st.gScore N current t (Ne.symm hNc)]
        exact hgc
    · rw [mget_mset_ne st.parent N p current hp] at hpq
      obtain ⟨gp, gq, hgp, hgq, hle⟩ := hInv.parentG p q hpq
      by_cases hq : q = N
      · -- the update condition gives t < gq since the old gScore gq of N is nonzero
        have hgqN : mget st.gScore N = some gq := by rw [← hq]; exact hgq
        have hgqz : gq ≠ 0 := fun hz => hNs (hInv.gZero N (hz ▸ hgqN))
        have htlt : t < gq := by
          unfold ltGInf at hlt
          simp only [hgqN] at hlt
          rw [if_neg hgqz] at hlt
          exact of_decide_eq_true hlt
        refine ⟨gp, t, ?_, ?_, by omega⟩
        · rw [mget_mset_ne st.gScore N p t hp]; exact hgp
        · rw [hq]; exact mget_mset_self st.gScore N t
      · refine ⟨gp, gq, ?_, ?_, hle⟩
        · rw [mget_mset_ne st.gScore N p t hp]; exact hgp
        · rw [mget_mset_ne st.gScore N q t hq]; exact hgq
  · -- gNonneg
    intro p gv hg
    by_cases hp : p = N
    · rw [hp, mget_mset_self] at hg
      injection hg with hg
      omega
    · rw [mget_mset_ne st.gScore N p t hp] at hg
      exact hInv.gNonneg p gv hg
  · -- gZero
    intro p hg
    by_cases hp : p = N
    · rw [hp, mget_mset_self] at hg
      injection hg with hg
      omega
    · rw [mget_mset_ne st.gScore N p t hp] at hg
      exact hInv.gZero p hg
  · -- queueChain
    intro pr p hmem
    rcases (mem_pqInsert _ _ _).mp hmem with he | hold
    · have hpN : p = N := congrArg Prod.snd he
      refine Or.inr ?_
      rw [hpN, mget_mset_self]
      simp
    · rcases hInv.queueChain pr p hold with hq | hq
      · exact Or.inl hq
      · exact Or.inr (mget_mset_some st.parent N p current hq)

theorem stepNeighbor_inv (cfg : WarehouseConfig) (w h : Int) (obst : List Obstacle)
    (edge : Edge) (start current : Position) (st : AState) (dir : Position)
    (hInv : AInv start st)
    (hcur : current = start ∨ mget st.parent current ≠ none)
    (hcv : current ∈ st.visited) :
    AInv start (stepNeighbor cfg w h obst edge current st dir) := by
  simp only [stepNeighbor]
  split_ifs with h1 h2 h3 h4
  · exact hInv
  · exact hInv
  · exact hInv
  · exact astar_update_inv start current ⟨current.x + dir.x, current.y + dir.y⟩
      (mgetD st.gScore current 0 + step) _ st hInv hcur hcv h1 rfl h4
  · exact hInv

theorem foldNeighbors_inv (cfg : WarehouseConfig) (w h : Int) (obst : List Obstacle)
    (edge : Edge) (start current : Position) :
    ∀ (ds : List Position) (st : AState), AInv start st →
      (current = start ∨ mget st.parent current ≠ none) → current ∈ st.visited →
      AInv start (ds.foldl (stepNeighbor cfg w h obst edge current) st) := by
  intro ds
  induction ds with
  | nil => intro st hInv _ _; exact hInv
  | cons d rest ih =>
    intro st hInv hcur hcv
    rw [List.foldl_cons]
    refine ih _ (stepNeighbor_inv cfg w h obst edge start current st d hInv hcur hcv) ?_ ?_
    · rcases hcur with hc | hc
      · exact Or.inl hc
      · exact Or.inr (stepNeighbor_parent_mono cfg w h obst edge current st d current hc)
    · rw [stepNeighbor_visited]
      exact hcv

theorem astarLoop_step_eq (cfg : WarehouseConfig) (w h : Int) (obst : List Obstacle)
    (edge : Edge) (fuel : Nat) (pr : Int) (current : Position) (rest : List (Int × Position))
    (vis : List Position) (par : List (Position × Position)) (g : List (Position × Int)) :
    astarLoop cfg w h obst edge (fuel + 1) ⟨(pr, current) :: rest, vis, par, g⟩ =
      if current ∈ vis then astarLoop cfg w h obst edge fuel ⟨rest, vis, par, g⟩
      else if isExit cfg edge current w h then
        some (recon par (mgetD g current 0).toNat current [])
      else astarLoop cfg w h obst edge fuel
        ((dirs edge).foldl (stepNeighbor cfg w h obst edge current)
          ⟨rest, current :: vis, par, g⟩) := rfl

theorem astarLoop_sound (cfg : WarehouseConfig) (w h : Int) (obst : List Obstacle)
    (edge : Edge) (start : Position) :
    ∀ (fuel : Nat) (st : AState), AInv start st →
      ∀ p, astarLoop cfg w h obst edge fuel st = some p →
        p ≠ [] ∧ p.head? = some start ∧
        ∃ q, p.getLast? = some q ∧ isExit cfg edge q w h = true := by
  intro fuel
  induction fuel with
  | zero =>
    intro st _ p hp
    exact absurd hp (by simp [astarLoop])
  | succ n ih =>
    intro st hInv p hp
    obtain ⟨queue, vis, par, g⟩ := st
    cases queue with
    | nil => exact absurd hp (by simp [astarLoop])
    | cons e rest =>
      obtain ⟨pr, current⟩ := e
      rw [astarLoop_step_eq] at hp
      by_cases hv : current ∈ vis
      · rw [if_pos hv] at hp
        refine ih ⟨rest, vis, par, g⟩ ⟨hInv.startVisited, hInv.startNoParent, hInv.startG,
          hInv.parentChain, hInv.parentG, hInv.gNonneg, hInv.gZero,
          fun pr' p' hm => hInv.queueChain pr' p' (List.mem_cons_of_mem _ hm)⟩ p hp
      · rw [if_neg hv] at hp
        have hcur := hInv.queueChain pr current (List.mem_cons_self _ _)
        by_cases hex : isExit cfg edge current w h = true
        · rw [if_pos hex] at hp
          injection hp with hp
          obtain ⟨gc, hgc⟩ := inv_gScore_present start ⟨(pr, current) :: rest, vis, par, g⟩
            hInv current hcur
        -- the recon fuel equals gc, which bounds the chain length
          obtain ⟨k, hreach, hk⟩ := chain_exists start ⟨(pr, current) :: rest, vis, par, g⟩
            hInv gc.toNat current gc hgc le_rfl hcur
          have hgc0 : 0 ≤ gc := hInv.gNonneg current gc hgc
          have hkf : k ≤ (mgetD g current 0).toNat := by
            have hd : mgetD g current 0 = gc := by rw [mgetD, hgc]; rfl
            have hstep : step = (10 : Int) := rfl
            rw [hd]
            rw [hstep] at hk
            omega
          obtain ⟨l, hl, hlast⟩ := recon_chain par start k current hreach _ [] hkf
          subst hp
          rw [hl]
          refine ⟨by simp, by simp, current, ?_, hex⟩
          simpa using hlast
        · rw [if_neg hex] at hp
          have hInv1 : AInv start ⟨rest, current :: vis, par, g⟩ :=
            ⟨List.mem_cons_of_mem _ hInv.startVisited, hInv.startNoParent, hInv.startG,
             hInv.parentChain, hInv.parentG, hInv.gNonneg, hInv.gZero,
             fun pr' p' hm => hInv.queueChain pr' p' (List.mem_cons_of_mem _ hm)⟩
          exact ih _ (foldNeighbors_inv cfg w h obst edge start current (dirs edge)
            ⟨rest, current :: vis, par, g⟩ hInv1 hcur (List.mem_cons_self _ _)) p hp

theorem initial_AInv (startPos : Position) :
    AInv startPos ⟨([] : List (Int × Position)), [startPos], [], [(startPos, 0)]⟩ := by
  refine ⟨List.mem_cons_self _ _, rfl, ?_, ?_, ?_, ?_, ?_, ?_⟩
  · show mget [(startPos, 0)] startPos = some 0
    simp [mget]
  · intro p q hpq; simp [mget] at hpq
  · intro p q hpq; simp [mget] at hpq
  · intro p g hg
    simp only [mget] at hg
    split_ifs at hg with hsp
    injection hg with hg; omega
  · intro p hg
    simp only [mget] at hg
    split_ifs at hg with hsp
    exact hsp.symm
  · intro pr p hm; exact absurd hm (List.not_mem_nil _)

/-- Endpoint soundness of the retrieval A* search: any returned path is
nonempty, starts at the box's current position, and ends at a position
satisfying the exit test of the chosen nearest edge. -/
theorem findRetrievalPath_sound (cfg : WarehouseConfig) (fuel : Nat) (targetBox : Box)
    (boxes : List Box) (p : List Position)
    (hp : findRetrievalPath cfg fuel targetBox boxes = some p) :
    p ≠ [] ∧ p.head? = some ⟨targetBox.x, targetBox.y⟩ ∧
    ∃ q, p.getLast? = some q ∧
      isExit cfg (nearestEdge cfg targetBox) q targetBox.width targetBox.height = true := by
  simp only [findRetrievalPath] at hp
  cases fuel with
  | zero => exact absurd hp (by simp [astarLoop])
  | succ n =>
    rw [astarLoop_step_eq] at hp
    rw [if_neg (List.not_mem_nil _)] at hp
    by_cases hex : isExit cfg (nearestEdge cfg targetBox) ⟨targetBox.x, targetBox.y⟩
        targetBox.width targetBox.height = true
    · rw [if_pos hex] at hp
      injection hp with hp
      subst hp
      have hg0 : mgetD [((⟨targetBox.x, targetBox.y⟩ : Position), (0 : Int))]
          ⟨targetBox.x, targetBox.y⟩ 0 = 0 := by
        simp [mgetD, mget]
      rw [hg0]
      exact ⟨by simp [recon], by simp [recon, mget],
        ⟨targetBox.x, targetBox.y⟩, by simp [recon, mget], hex⟩
    · rw [if_neg hex] at hp
      exact astarLoop_sound cfg targetBox.width targetBox.height _
        (nearestEdge cfg targetBox) ⟨targetBox.x, targetBox.y⟩ n _
        (foldNeighbors_inv cfg targetBox.width targetBox.height _
          (nearestEdge cfg targetBox) ⟨targetBox.x, targetBox.y⟩ ⟨targetBox.x, targetBox.y⟩
          (dirs (nearestEdge cfg targetBox)) _ (initial_AInv _) (Or.inl rfl)
          (List.mem_cons_self _ _)) p hp

/-! ### C4: retrieval path endpoints -/

theorem buildRetrievalPaths_lookup (cfg : WarehouseConfig) (fuel : Nat) (boxes : List Box) :
    ∀ (order : List Nat) (bid : Nat) (p : List Position),
      lookupN (buildRetrievalPaths cfg fuel boxes order) bid = some p →
      ∃ b, boxes.find? (fun e => e.id == bid) = some b ∧ b.isPacked = true ∧
        findRetrievalPath cfg fuel b boxes = some p := by
  intro order
  induction order with
  | nil => intro bid p hl; simp [buildRetrievalPaths, lookupN] at hl
  | cons bid0 rest ih =>
    intro bid p hl
    simp only [buildRetrievalPaths] at hl
    rcases hfind : boxes.find? (fun e => e.id == bid0) with _ | b
    · rw [hfind] at hl
      exact ih bid p hl
    · rw [hfind] at hl
      simp only [] at hl
      by_cases hpk : b.isPacked = true
      · rw [if_pos hpk] at hl
        rcases hpath : findRetrievalPath cfg fuel b boxes with _ | q
        · rw [hpath] at hl
          exact ih bid p hl
        · rw [hpath] at hl
          simp only [lookupN] at hl
          by_cases hbid : bid0 = bid
          · rw [if_pos hbid] at hl
            injection hl with hl
            subst hbid
            subst hl
            exact ⟨b, hfind, hpk, hpath⟩
          · rw [if_neg hbid] at hl
            exact ih bid p hl
      · rw [if_neg hpk] at hl
        exact ih bid p hl

/-- C4: `findRetrievalPath` returns null or a nonempty path from the box's
current (x, y) to a position satisfying the chosen nearest edge's exit
condition; consequently every `retrievalPaths` entry of a `packBoxes` result
starts at the committed position of the box with that id and ends at a
position beyond some storage boundary. -/
theorem c4_retrieval_path_endpoints (cfg : WarehouseConfig) (fuel : Nat) :
    (∀ (targetBox : Box) (obstacleBoxes : List Box) (p : List Position),
        findRetrievalPath cfg fuel targetBox obstacleBoxes = some p →
        p ≠ [] ∧ p.head? = some ⟨targetBox.x, targetBox.y⟩ ∧
        ∃ q, p.getLast? = some q ∧
          isExit cfg (nearestEdge cfg targetBox) q targetBox.width targetBox.height = true) ∧
    (∀ (rand : Nat → Nat) (boxes : List Box) (bid : Nat) (p : List Position),
        lookupN (packBoxes cfg fuel rand boxes).retrievalPaths bid = some p →
        ∃ b, b ∈ (packBoxes cfg fuel rand boxes).boxes ∧ b.id = bid ∧ b.isPacked = true ∧
          p ≠ [] ∧ p.head? = some ⟨b.x, b.y⟩ ∧
          ∃ q, p.getLast? = some q ∧
            (q.x ≤ 0 ∨ q.x + b.width ≥ cfg.storageWidth ∨ q.y ≤ 0 ∨
             q.y + b.height ≥ cfg.storageLength)) := by
  constructor
  · intro targetBox obstacleBoxes p hp
    exact findRetrievalPath_sound cfg fuel targetBox obstacleBoxes p hp
  · intro rand boxes bid p hl
    obtain ⟨b, hfind, hpk, hpath⟩ :=
      buildRetrievalPaths_lookup cfg fuel (packBoxes cfg fuel rand boxes).boxes
        (fisherYates (List.range boxes.length) rand) bid p hl
    obtain ⟨hne, hhead, q, hlast, hex⟩ :=
      findRetrievalPath_sound cfg fuel b (packBoxes cfg fuel rand boxes).boxes p hpath
    refine ⟨b, List.mem_of_find?_eq_some hfind, ?_, hpk, hne, hhead, q, hlast, ?_⟩
    · have hpred := List.find?_some hfind
      simpa using hpred
    · cases hedge : nearestEdge cfg b <;> rw [hedge] at hex <;>
        simp only [isExit, decide_eq_true_eq] at hex <;> tauto

/-! ### BFS packing-search soundness -/

theorem recon_none (m : List (Position × Position)) (p : Position) (acc : List Position)
    (f : Nat) (h : mget m p = none) : recon m f p acc = p :: acc := by
  cases f <;> simp [recon, h]

theorem bfs_update_binv (start current N : Position) (st : BState)
    (hInv : BInv start st)
    (hcur : current = start ∨ mget st.parent current ≠ none)
    (hvisN : N ∉ st.visited) :
    BInv start ⟨st.queue ++ [N], N :: st.visited, mset st.parent N current⟩ := by
  have hfresh : mget st.parent N = none := by
    rcases hq : mget st.parent N with _ | q
    · rfl
    · exact absurd (hInv.parentInVisited N (by rw [hq]; simp)) hvisN
  have hNs : N ≠ start := fun he => hvisN (by rw [he]; exact hInv.startVisited)
  have hlen : (mset st.parent N current).length = st.parent.length + 1 :=
    mset_length_fresh st.parent N current hfresh
  refine ⟨?_, ?_, ?_, ?_, ?_⟩
  · exact List.mem_cons_of_mem _ hInv.startVisited
  · rw [mget_mset_ne st.parent N start current (Ne.symm hNs)]
    exact hInv.startNoParent
  · intro p hp
    by_cases hpN : p = N
    · rw [hpN]; exact List.mem_cons_self _ _
    · rw [mget_mset_ne st.parent N p current hpN] at hp
      exact List.mem_cons_of_mem _ (hInv.parentInVisited p hp)
  · intro p hp
    by_cases hpN : p = N
    · rcases hcur with hc | hdom
      · have hbase : ReachesStart (mset st.parent N current) start current 0 := by
          nth_rewrite 2 [hc]
          exact ReachesStart.base
            (by rw [mget_mset_ne st.parent N start current (Ne.symm hNs)]
                exact hInv.startNoParent)
        refine ⟨0 + 1, ReachesStart.hop ?_ hbase, ?_⟩
        · rw [hpN]; exact mget_mset_self st.parent N current
        · show 0 + 1 ≤ (mset st.parent N current).length
          rw [hlen]; omega
      · obtain ⟨k, hreach, hk⟩ := hInv.parentChainB current hdom
        have hchain := reachesStart_mset_fresh st.parent start N current hfresh hNs current k hreach
        refine ⟨k + 1, ReachesStart.hop ?_ hchain, ?_⟩
        · rw [hpN]; exact mget_mset_self st.parent N current
        · show k + 1 ≤ (mset st.parent N current).length
          rw [hlen]; omega
    · rw [mget_mset_ne st.parent N p current hpN] at hp
      obtain ⟨k, hreach, hk⟩ := hInv.parentChainB p hp
      refine ⟨k, reachesStart_mset_fresh st.parent start N current hfresh hNs p k hreach, ?_⟩
      show k ≤ (mset st.parent N current).length
      rw [hlen]; omega
  · intro p hp
    rcases List.mem_append.mp hp with hold | hnew
    · rcases hInv.queueChainB p hold with hc | hc
      · exact Or.inl hc
      · exact Or.inr (mget_mset_some st.parent N p current hc)
    · have hpN : p = N := by simpa using hnew
      refine Or.inr ?_
      rw [hpN, mget_mset_self]
      simp

theorem bfsNeighbor_binv (cfg : WarehouseConfig) (w h : Int) (obst : List Obstacle)
    (start current : Position) (st : BState) (dir : Position)
    (hInv : BInv start st)
    (hcur : current = start ∨ mget st.parent current ≠ none) :
    BInv start (bfsNeighbor cfg w h obst current st dir) := by
  simp only [bfsNeighbor]
  split_ifs with h1 h2 h3
  · exact hInv
  · exact hInv
  · exact hInv
  · exact bfs_update_binv start current ⟨current.x + dir.x, current.y + dir.y⟩ st hInv hcur h1

theorem bfsNeighbor_parent_mono (cfg : WarehouseConfig) (w h : Int) (obst : List Obstacle)
    (current : Position) (st : BState) (dir : Position) (p : Position)
    (hp : mget st.parent p ≠ none) :
    mget (bfsNeighbor cfg w h obst current st dir).parent p ≠ none := by
  simp only [bfsNeighbor]
  split_ifs <;> first
    | exact hp
    | exact mget_mset_some st.parent _ p current hp

theorem foldBfsNeighbors_binv (cfg : WarehouseConfig) (w h : Int) (obst : List Obstacle)
    (start current : Position) :
    ∀ (ds : List Position) (st : BState), BInv start st →
      (current = start ∨ mget st.parent current ≠ none) →
      BInv start (ds.foldl (bfsNeighbor cfg w h obst current) st) := by
  intro ds
  induction ds with
  | nil => intro st hInv _; exact hInv
  | cons d rest ih =>
    intro st hInv hcur
    rw [List.foldl_cons]
    refine ih _ (bfsNeighbor_binv cfg w h obst start current st d hInv hcur) ?_
    rcases hcur with hc | hc
    · exact Or.inl hc
    · exact Or.inr (bfsNeighbor_parent_mono cfg w h obst current st d current hc)

theorem bfsLoop_sound (cfg : WarehouseConfig) (target : Position) (w h : Int)
    (obst : List Obstacle) (start : Position) :
    ∀ (fuel : Nat) (st : BState), BInv start st →
      bfsLoop cfg target w h obst fuel st = fallbackPath cfg target ∨
      (bfsLoop cfg target w h obst fuel st ≠ [] ∧
       (bfsLoop cfg target w h obst fuel st).head? = some start ∧
       (bfsLoop cfg target w h obst fuel st).getLast? = some target) := by
  intro fuel
  induction fuel with
  | zero => intro st _; exact Or.inl rfl
  | succ n ih =>
    intro st hInv
    obtain ⟨queue, vis, par⟩ := st
    cases queue with
    | nil => exact Or.inl rfl
    | cons current rest =>
      by_cases htar : current = target
      · have heq : bfsLoop cfg target w h obst (n + 1) ⟨current :: rest, vis, par⟩ =
            recon par par.length current [] := by
          have hunf : bfsLoop cfg target w h obst (n + 1) ⟨current :: rest, vis, par⟩ =
              if current = target then recon par par.length current []
              else bfsLoop cfg target w h obst n
                (dirs4.foldl (bfsNeighbor cfg w h obst current) ⟨rest, vis, par⟩) := rfl
          rw [hunf, if_pos htar]
        rw [heq]
        rcases hInv.queueChainB current (List.mem_cons_self _ _) with hc | hdom
        · right
          rw [hc] at htar ⊢
          rw [recon_none par start [] par.length hInv.startNoParent]
          exact ⟨by simp, rfl, by rw [← htar]; simp⟩
        · obtain ⟨k, hreach, hk⟩ := hInv.parentChainB current hdom
          obtain ⟨l, hl, hlast⟩ := recon_chain par start k current hreach par.length [] hk
          right
          rw [hl]
          refine ⟨by simp, by simp, ?_⟩
          rw [← htar]
          simpa using hlast
      · have heq : bfsLoop cfg target w h obst (n + 1) ⟨current :: rest, vis, par⟩ =
            bfsLoop cfg target w h obst n
              (dirs4.foldl (bfsNeighbor cfg w h obst current) ⟨rest, vis, par⟩) :=
          bfsLoop_cons cfg target w h obst n current rest vis par htar
        rw [heq]
        have hInv1 : BInv start ⟨rest, vis, par⟩ :=
          ⟨hInv.startVisited, hInv.startNoParent, hInv.parentInVisited, hInv.parentChainB,
           fun p hp => hInv.queueChainB p (List.mem_cons_of_mem _ hp)⟩
        exact ih _ (foldBfsNeighbors_binv cfg w h obst start current dirs4 ⟨rest, vis, par⟩
          hInv1 (hInv.queueChainB current (List.mem_cons_self _ _)))

/-- Endpoint properties of `findPackingPath`: the result is nonempty, ends at
the target, and either starts at the dock (BFS path) or never contains the
dock (fallback path). -/
theorem findPackingPath_endpoints (cfg : WarehouseConfig) (fuel : Nat) (targetPos : Position)
    (w h : Int) (existingBoxes : List Box) (hy : targetPos.y < cfg.storageLength) :
    findPackingPath cfg fuel targetPos w h existingBoxes ≠ [] ∧
    (findPackingPath cfg fuel targetPos w h existingBoxes).getLast? = some targetPos ∧
    ((findPackingPath cfg fuel targetPos w h existingBoxes).head? =
        some ⟨0, cfg.storageLength⟩ ∨
      (⟨0, cfg.storageLength⟩ : Position) ∉
        findPackingPath cfg fuel targetPos w h existingBoxes) := by
  have hInv0 : BInv (⟨0, cfg.storageLength⟩ : Position)
      ⟨[⟨0, cfg.storageLength⟩], [⟨0, cfg.storageLength⟩], []⟩ := by
    refine ⟨List.mem_cons_self _ _, rfl, ?_, ?_, ?_⟩
    · intro p hp; exact absurd rfl hp
    · intro p hp; exact absurd rfl hp
    · intro p hp
      have hps : p = ⟨0, cfg.storageLength⟩ := by simpa using hp
      exact Or.inl hps
  have hsound := bfsLoop_sound cfg targetPos w h
    ((existingBoxes.filter (·.isPacked)).map (inflate cfg)) ⟨0, cfg.storageLength⟩ fuel
    ⟨[⟨0, cfg.storageLength⟩], [⟨0, cfg.storageLength⟩], []⟩ hInv0
  have hdef : findPackingPath cfg fuel targetPos w h existingBoxes =
      bfsLoop cfg targetPos w h ((existingBoxes.filter (·.isPacked)).map (inflate cfg)) fuel
        ⟨[⟨0, cfg.storageLength⟩], [⟨0, cfg.storageLength⟩], []⟩ := rfl
  rw [← hdef] at hsound
  have hcond : ¬((0 : Int) = targetPos.x ∧ cfg.storageLength = targetPos.y) := by
    rintro ⟨_, hL⟩
    omega
  rcases hsound with hfb | ⟨hne, hhead, hlast⟩
  · rw [hfb]
    refine ⟨fallbackSteps_ne_nil _ _ _ _ hcond, fallbackSteps_getLast _ _ _ _ hcond, Or.inr ?_⟩
    intro hmem
    have hylt := fallbackSteps_y_lt targetPos.x targetPos.y cfg.storageLength 0
      cfg.storageLength hy (by omega) le_rfl _ hmem
    simp at hylt
  · exact ⟨hne, hlast, Or.inl hhead⟩

/-- Witness for C4 at a concrete instance. -/
theorem c4_witness :
    ([(⟨0, 0⟩ : Position)] ≠ [] ∧
     ([(⟨0, 0⟩ : Position)]).head? = some ⟨0, 0⟩ ∧
     ∃ q, ([(⟨0, 0⟩ : Position)]).getLast? = some q ∧
       isExit ⟨100, 100, 0⟩ (nearestEdge ⟨100, 100, 0⟩ ⟨0, 50, 50, 0, 0, false, true⟩)
         q 50 50 = true) :=
  (c4_retrieval_path_endpoints ⟨100, 100, 0⟩ 10).1 ⟨0, 50, 50, 0, 0, false, true⟩ []
    [⟨0, 0⟩] (by decide)

/-! ### List helpers for the packing-loop invariant -/

theorem get?_set_ne {α : Type} (l : List α) (i j : Nat) (a : α) (h : i ≠ j) :
    (l.set i a).get? j = l.get? j := by
  rw [List.get?_eq_getElem?, List.get?_eq_getElem?, List.getElem?_set_ne h]

theorem get?_set_self {α : Type} (l : List α) (i : Nat) (a : α) (h : i < l.length) :
    (l.set i a).get? i = some a := by
  rw [List.get?_eq_getElem?, List.getElem?_set_eq_of_lt a h]

theorem mem_of_mem_set {α : Type} : ∀ (l : List α) (i : Nat) (a bb : α),
    bb ∈ l.set i a → bb = a ∨ bb ∈ l := by
  intro l
  induction l with
  | nil => intro i a bb hm; simp at hm
  | cons x xs ih =>
    intro i a bb hm
    cases i with
    | zero =>
      rcases List.mem_cons.mp hm with hb | hb
      · exact Or.inl hb
      · exact Or.inr (List.mem_cons_of_mem _ hb)
    | succ n =>
      rcases List.mem_cons.mp hm with hb | hb
      · exact Or.inr (hb ▸ List.mem_cons_self _ _)
      · rcases ih n a bb hb with hb' | hb'
        · exact Or.inl hb'
        · exact Or.inr (List.mem_cons_of_mem _ hb')

theorem pairwise_set {α : Type} (R : α → α → Prop) :
    ∀ (l : List α) (i : Nat) (a : α), List.Pairwise R l →
      (∀ b ∈ l, R b a ∧ R a b) → List.Pairwise R (l.set i a) := by
  intro l
  induction l with
  | nil => intro i a _ _; simp
  | cons x xs ih =>
    intro i a hpw hrel
    cases i with
    | zero =>
      refine List.Pairwise.cons ?_ (List.Pairwise.sublist (List.sublist_cons_self x xs) hpw)
      intro y hy
      exact (hrel y (List.mem_cons_of_mem _ hy)).2
    | succ n =>
      refine List.Pairwise.cons ?_ ?_
      · intro y hy
        rcases mem_of_mem_set xs n a y hy with hy' | hy'
        · rw [hy']
          exact (hrel x (List.mem_cons_self _ _)).1
        · exact (List.pairwise_cons.mp hpw).1 y hy'
      · exact ih n a (List.pairwise_cons.mp hpw).2
          (fun b hb => hrel b (List.mem_cons_of_mem _ hb))

theorem pairwise_of_forall_mem {α : Type} (R : α → α → Prop) :
    ∀ (l : List α), (∀ a ∈ l, ∀ b ∈ l, R a b) → List.Pairwise R l := by
  intro l
  induction l with
  | nil => intro _; simp
  | cons x xs ih =>
    intro hall
    refine List.Pairwise.cons ?_ ?_
    · intro y hy
      exact hall x (List.mem_cons_self _ _) y (List.mem_cons_of_mem _ hy)
    · exact ih (fun a ha b hb =>
        hall a (List.mem_cons_of_mem _ ha) b (List.mem_cons_of_mem _ hb))

theorem nodup_get?_inj {α : Type} [DecidableEq α] (l : List α) (hnd : l.Nodup)
    (j k : Nat) (v : α) (hj : l.get? j = some v) (hk : l.get? k = some v) : j = k := by
  have hjl : j < l.length := by
    by_contra hge
    rw [List.get?_eq_getElem?, List.getElem?_eq_none (by omega)] at hj
    exact Option.noConfusion hj
  have hkl : k < l.length := by
    by_contra hge
    rw [List.get?_eq_getElem?, List.getElem?_eq_none (by omega)] at hk
    exact Option.noConfusion hk
  have hjv : l.get ⟨j, hjl⟩ = v := by
    have := List.get?_eq_get hjl
    rw [this] at hj
    injection hj
  have hkv : l.get ⟨k, hkl⟩ = v := by
    have := List.get?_eq_get hkl
    rw [this] at hk
    injection hk
  have heq : l.get ⟨j, hjl⟩ = l.get ⟨k, hkl⟩ := by rw [hjv, hkv]
  have hfin := (List.Nodup.get_inj_iff hnd).mp heq
  exact congrArg Fin.val hfin

/-! ### Placement scan facts -/

theorem rasterList_mem (lim a : Int) (h : a ∈ rasterList lim) : 0 ≤ a ∧ a ≤ lim := by
  unfold rasterList at h
  split_ifs at h with hneg
  · simp at h
  · rw [List.mem_map] at h
    obtain ⟨k, hk, heq⟩ := h
    rw [List.mem_range] at hk
    subst heq
    have hdiv := Nat.div_mul_le_self lim.toNat 10
    have hk10 : k * 10 ≤ lim.toNat := by
      have hk' : k ≤ lim.toNat / 10 := Nat.lt_succ_iff.mp hk
      calc k * 10 ≤ lim.toNat / 10 * 10 := Nat.mul_le_mul_right 10 hk'
        _ ≤ lim.toNat := hdiv
    constructor
    · have hk0 : (0 : Int) ≤ (k : Int) := Int.natCast_nonneg k
      omega
    · have h1 : ((k * 10 : Nat) : Int) ≤ ((lim.toNat : Nat) : Int) := Int.ofNat_le.mpr hk10
      push_cast at h1
      omega

theorem candidate_mem_bounds (cfg : WarehouseConfig) (w h : Int) (pos : Position)
    (hmem : pos ∈ candidatePositions cfg w h) :
    0 ≤ pos.x ∧ pos.x ≤ cfg.storageWidth - w ∧ 0 ≤ pos.y ∧ pos.y ≤ cfg.storageLength - h := by
  unfold candidatePositions at hmem
  rw [List.mem_flatMap] at hmem
  obtain ⟨y, hy, hx⟩ := hmem
  rw [List.mem_map] at hx
  obtain ⟨x, hx, rfl⟩ := hx
  have h1 := rasterList_mem _ _ hx
  have h2 := rasterList_mem _ _ hy
  exact ⟨h1.1, h1.2, h2.1, h2.2⟩

theorem packedGuard_symm (cfg : WarehouseConfig) : Symmetric (packedGuard cfg) := by
  intro a b hab hb ha
  exact sepAtLeast_symm (hab ha hb)

/-- A passing commit-time collision check separates the candidate from every
currently packed box (by at least the clearance along some axis). -/
theorem collidesAt_false_sep (cfg : WarehouseConfig) (input : List Box) (i : Nat)
    (st : PackState) (hInv : LoopInv cfg input i st) (hc : 0 ≤ cfg.clearance)
    (b' : Box)
    (hcol : collidesAt cfg st.boxes st.packedPositions ⟨b'.x, b'.y⟩ b'.width b'.height
      = false) :
    ∀ bb ∈ st.boxes, bb.isPacked = true → sepAtLeast cfg.clearance b' bb := by
  intro bb hbb hpk
  obtain ⟨j, hj⟩ := List.mem_iff_get?.mp hbb
  have hq : (⟨bb.x, bb.y⟩ : Position) ∈ st.packedPositions :=
    (hInv.positions _).mpr ⟨j, bb, hj, hpk, rfl⟩
  unfold collidesAt at hcol
  rw [List.any_eq_false] at hcol
  have hflat := hcol ⟨bb.x, bb.y⟩ hq
  have hpredbb : (fun e => e.isPacked && e.x == bb.x && e.y == bb.y) bb = true := by
    simp [hpk]
  have hfsome : (st.boxes.find? (fun e => e.isPacked && e.x == bb.x && e.y == bb.y)).isSome :=
    List.find?_isSome.mpr ⟨bb, hbb, hpredbb⟩
  rcases hfind : st.boxes.find? (fun e => e.isPacked && e.x == bb.x && e.y == bb.y)
    with _ | e
  · rw [hfind] at hfsome; simp at hfsome
  · have hprede := List.find?_some hfind
    simp only [Bool.and_eq_true, beq_iff_eq] at hprede
    obtain ⟨⟨hepk, hex⟩, hey⟩ := hprede
    have hemem := List.mem_of_find?_eq_some hfind
    have hebb : e = bb := by
      by_cases heb : e = bb
      · exact heb
      · have hsep := List.Pairwise.forall (packedGuard_symm cfg) hInv.pairwiseSep
          hemem hbb heb hepk hpk
        have hbbd := hInv.packedBounds bb hbb hpk
        have hed := hInv.packedBounds e hemem hepk
        unfold sepAtLeast at hsep
        omega
    rw [hfind, hebb] at hflat
    by_contra hsep
    unfold sepAtLeast at hsep
    push_neg at hsep
    apply hflat
    simp only [Bool.and_eq_true, decide_eq_true_eq]
    refine ⟨⟨⟨?_, ?_⟩, ?_⟩, ?_⟩ <;> omega

theorem tryPlaceScan_some (cfg : WarehouseConfig) (fuel : Nat) (boxes : List Box)
    (packed : List Position) (order : List Nat) (b : Box) (pos : Position) (o : Orient)
    (h : tryPlaceScan cfg fuel boxes packed order b = some (pos, o)) :
    ((o.w = b.width ∧ o.h = b.height) ∨ (o.w = b.height ∧ o.h = b.width)) ∧
    pos ∈ candidatePositions cfg o.w o.h ∧
    collidesAt cfg boxes packed pos o.w o.h = false := by
  unfold tryPlaceScan at h
  obtain ⟨oc, hoc, hf⟩ := List.exists_of_findSome?_eq_some h
  obtain ⟨p', hp', hif⟩ := List.exists_of_findSome?_eq_some hf
  split_ifs at hif with hcol hblk
  injection hif with hif
  have hpp : p' = pos := congrArg Prod.fst hif
  have hoo : oc = o := congrArg Prod.snd hif
  rw [hpp] at hp' hcol
  rw [hoo] at hp' hcol hoc
  refine ⟨?_, hp', Bool.eq_false_iff.mpr hcol⟩
  simp only [List.mem_cons, List.not_mem_nil, or_false] at hoc
  rcases hoc with h1 | h1
  · left; rw [h1]; exact ⟨rfl, rfl⟩
  · right; rw [h1]; exact ⟨rfl, rfl⟩

/-! ### The packing-loop invariant is preserved -/

theorem packStep_inv (cfg : WarehouseConfig) (fuel : Nat) (order : List Nat)
    (input : List Box) (hc : 0 ≤ cfg.clearance)
    (hunp : ∀ b ∈ input, b.isPacked = false)
    (hdims : ∀ b ∈ input, 0 < b.width ∧ 0 < b.height)
    (i : Nat) (st : PackState) (hInv : LoopInv cfg input i st) :
    LoopInv cfg input (i + 1) (packStep cfg fuel order st i) := by
  have hmono : ∀ (st' : PackState), LoopInv cfg input i st' → LoopInv cfg input (i + 1) st' :=
    fun st' hI => ⟨hI.len, fun j hj => hI.suffix j (by omega), hI.unpackedKeep, hI.ids,
      hI.packedBounds, hI.pairwiseSep, hI.positions, hI.pathsVal⟩
  rcases hb : st.boxes.get? i with _ | b
  · simp only [packStep, hb]
    exact hmono st hInv
  · rcases hscan : tryPlaceScan cfg fuel st.boxes st.packedPositions order b with _ | r
    · simp only [packStep, hb, hscan]
      exact hmono st hInv
    · obtain ⟨pos, o⟩ := r
      simp only [packStep, hb, hscan]
      obtain ⟨horient, hcand, hcolF⟩ :=
        tryPlaceScan_some cfg fuel st.boxes st.packedPositions order b pos o hscan
      have hinput_b : input.get? i = some b := by rw [← hInv.suffix i le_rfl]; exact hb
      have hb_mem_input : b ∈ input := List.mem_iff_get?.mpr ⟨i, hinput_b⟩
      have hb_unp : b.isPacked = false := hunp b hb_mem_input
      have hb_dims := hdims b hb_mem_input
      have how : 0 < o.w ∧ 0 < o.h := by
        rcases horient with ⟨h1, h2⟩ | ⟨h1, h2⟩ <;> rw [h1, h2]
        · exact ⟨hb_dims.1, hb_dims.2⟩
        · exact ⟨hb_dims.2, hb_dims.1⟩
      obtain ⟨hbx0, hbxW, hby0, hbyL⟩ := candidate_mem_bounds cfg o.w o.h pos hcand
      have hilen : i < st.boxes.length := by
        by_contra hge
        rw [List.get?_eq_getElem?, List.getElem?_eq_none (by omega)] at hb
        exact Option.noConfusion hb
      have hlen' : st.boxes.length = input.length := hInv.len
      have hsep' : ∀ bb ∈ st.boxes, bb.isPacked = true →
          sepAtLeast cfg.clearance
            { b with x := pos.x, y := pos.y, width := o.w, height := o.h,
                     isRotated := o.rot, isPacked := true } bb :=
        collidesAt_false_sep cfg input i st hInv hc _ hcolF
      refine ⟨?_, ?_, ?_, ?_, ?_, ?_, ?_, ?_⟩
      · rw [List.length_set]; exact hInv.len
      · intro j hj
        rw [get?_set_ne st.boxes i j _ (by omega)]
        exact hInv.suffix j (by omega)
      · intro j bb hbb hbbunp
        by_cases hji : j = i
        · subst hji
          rw [get?_set_self st.boxes j _ hilen] at hbb
          injection hbb with hbb
          rw [← hbb] at hbbunp
          simp at hbbunp
        · rw [get?_set_ne st.boxes i j _ (fun he => hji he.symm)] at hbb
          exact hInv.unpackedKeep j bb hbb hbbunp
      · rw [List.map_set, hInv.ids]
        apply List.ext_get?
        intro n
        by_cases hni : n = i
        · subst hni
          rw [get?_set_self _ n _ (by rw [List.length_map]; omega)]
          rw [List.get?_map, hinput_b]
          rfl
        · rw [get?_set_ne _ i n _ (fun he => hni he.symm)]
      · intro bb hbb hpk
        rcases mem_of_mem_set _ i _ bb hbb with hbb' | hbb'
        · rw [hbb']
          refine ⟨?_, ?_, ?_, ?_, ?_, ?_⟩
          · show (0 : Int) ≤ pos.x
            omega
          · show pos.x + o.w ≤ cfg.storageWidth
            omega
          · show (0 : Int) ≤ pos.y
            omega
          · show pos.y + o.h ≤ cfg.storageLength
            omega
          · show (0 : Int) < o.w
            omega
          · show (0 : Int) < o.h
            omega
        · exact hInv.packedBounds bb hbb' hpk
      · apply pairwise_set (packedGuard cfg) st.boxes i _ hInv.pairwiseSep
        intro bb hbb
        constructor
        · intro hpkbb _
          exact sepAtLeast_symm (hsep' bb hbb hpkbb)
        · intro _ hpkbb
          exact hsep' bb hbb hpkbb
      · intro q
        constructor
        · intro hq
          rcases List.mem_append.mp hq with hold | hnew
          · obtain ⟨j, bb, hjget, hpkbb, hqe⟩ := (hInv.positions q).mp hold
            have hji : j ≠ i := by
              intro he
              rw [he, hb] at hjget
              injection hjget with hjget
              rw [← hjget] at hpkbb
              rw [hb_unp] at hpkbb
              exact Bool.noConfusion hpkbb
            exact ⟨j, bb, by rw [get?_set_ne st.boxes i j _ (fun he => hji he.symm)]; exact hjget,
              hpkbb, hqe⟩
          · have hqp : q = pos := by simpa using hnew
            exact ⟨i, _, get?_set_self st.boxes i _ hilen, rfl, hqp⟩
        · rintro ⟨j, bb, hjget, hpkbb, hqe⟩
          by_cases hji : j = i
          · subst hji
            rw [get?_set_self st.boxes j _ hilen] at hjget
            injection hjget with hjget
            rw [← hjget] at hqe
            apply List.mem_append.mpr
            right
            simp [hqe]
          · rw [get?_set_ne st.boxes i j _ (fun he => hji he.symm)] at hjget
            exact List.mem_append.mpr (Or.inl ((hInv.positions q).mpr ⟨j, bb, hjget, hpkbb, hqe⟩))
      · intro bid p hl
        simp only [lookupN] at hl
        split_ifs at hl with hbid
        · injection hl with hl
          have hyL : pos.y < cfg.storageLength := by omega
          obtain ⟨hne, hlast, hheads⟩ := findPackingPath_endpoints cfg fuel pos o.w o.h ((st.boxes.set i { b with x := pos.x, y := pos.y, width := o.w, height := o.h, isRotated := o.rot, isPacked := true }).take i) hyL
          refine ⟨i, _, get?_set_self st.boxes i _ hilen, rfl, hbid ▸ rfl, ?_, ?_, ?_⟩
          · rw [← hl]; exact hne
          · rw [← hl]; exact hlast
          · rw [← hl]; exact hheads
        · obtain ⟨j, bb, hjget, hpkbb, hbide, hrest⟩ := hInv.pathsVal bid p hl
          have hji : j ≠ i := by
            intro he
            rw [he, hb] at hjget
            injection hjget with hjget
            rw [← hjget] at hpkbb
            rw [hb_unp] at hpkbb
            exact Bool.noConfusion hpkbb
          exact ⟨j, bb, by rw [get?_set_ne st.boxes i j _ (fun he => hji he.symm)]; exact hjget,
            hpkbb, hbide, hrest⟩

theorem packLoopGo_inv (cfg : WarehouseConfig) (fuel : Nat) (order : List Nat)
    (input : List Box) (hc : 0 ≤ cfg.clearance)
    (hunp : ∀ b ∈ input, b.isPacked = false)
    (hdims : ∀ b ∈ input, 0 < b.width ∧ 0 < b.height) :
    ∀ (rem i : Nat) (st : PackState), LoopInv cfg input i st →
      LoopInv cfg input (i + rem) (packLoopGo cfg fuel order i rem st) := by
  intro rem
  induction rem with
  | zero => intro i st h; exact h
  | succ n ih =>
    intro i st h
    have hstep := ih (i + 1) (packStep cfg fuel order st i)
      (packStep_inv cfg fuel order input hc hunp hdims i st h)
    show LoopInv cfg input (i + (n + 1))
      (packLoopGo cfg fuel order (i + 1) n (packStep cfg fuel order st i))
    have harith : i + (n + 1) = (i + 1) + n := by omega
    rw [harith]
    exact hstep

theorem loopInv_init (cfg : WarehouseConfig) (input : List Box)
    (hunp : ∀ b ∈ input, b.isPacked = false) :
    LoopInv cfg input 0 ⟨input, [], []⟩ := by
  refine ⟨rfl, fun j _ => rfl, fun j b hb _ => hb, rfl, ?_, ?_, ?_, ?_⟩
  · intro b hb hpk
    rw [hunp b hb] at hpk
    exact Bool.noConfusion hpk
  · apply pairwise_of_forall_mem
    intro a ha b _ hpa
    rw [hunp a ha] at hpa
    exact absurd hpa (by simp)
  · intro q
    constructor
    · intro hq; exact absurd hq (List.not_mem_nil q)
    · rintro ⟨j, bb, hjget, hpk, _⟩
      have hbbmem : bb ∈ input := List.mem_iff_get?.mpr ⟨j, hjget⟩
      rw [hunp bb hbbmem] at hpk
      exact Bool.noConfusion hpk
  · intro bid p hl
    exact absurd hl (by simp [lookupN])

theorem packBoxes_inv (cfg : WarehouseConfig) (fuel : Nat) (rand : Nat → Nat)
    (boxes : List Box) (hc : 0 ≤ cfg.clearance)
    (hunp : ∀ b ∈ boxes, b.isPacked = false)
    (hdims : ∀ b ∈ boxes, 0 < b.width ∧ 0 < b.height) :
    LoopInv cfg boxes boxes.length
      (packLoopGo cfg fuel (fisherYates (List.range boxes.length) rand) 0 boxes.length
        ⟨boxes, [], []⟩) := by
  have h := packLoopGo_inv cfg fuel (fisherYates (List.range boxes.length) rand) boxes
    hc hunp hdims boxes.length 0 ⟨boxes, [], []⟩ (loopInv_init cfg boxes hunp)
  simpa using h

/-- C1 (amended): on a valid input — all boxes initially unpacked, positive
dimensions, clearance ≥ 0 — every pair of distinct committed boxes in a
`packBoxes` result is separated by at least the clearance (once, not twice)
along some axis. -/
theorem c1_packed_boxes_separated (cfg : WarehouseConfig) (fuel : Nat) (rand : Nat → Nat)
    (boxes : List Box) (hc : 0 ≤ cfg.clearance)
    (hunp : ∀ b ∈ boxes, b.isPacked = false)
    (hdims : ∀ b ∈ boxes, 0 < b.width ∧ 0 < b.height) :
    List.Pairwise (fun b1 b2 => b1.isPacked = true → b2.isPacked = true →
      sepAtLeast cfg.clearance b1 b2) (packBoxes cfg fuel rand boxes).boxes :=
  (packBoxes_inv cfg fuel rand boxes hc hunp hdims).pairwiseSep

/-- Witness for the amended C1 at the counterexample configuration: there the
committed boxes (0,0) and (60,0) are separated by exactly the clearance 10. -/
theorem c1_witness :
    (0 : Int) ≤ (10 : Int) ∧
    (∀ b ∈ [(⟨0, 50, 50, 0, 0, false, false⟩ : Box), ⟨1, 50, 50, 0, 0, false, false⟩],
      b.isPacked = false) ∧
    (∀ b ∈ [(⟨0, 50, 50, 0, 0, false, false⟩ : Box), ⟨1, 50, 50, 0, 0, false, false⟩],
      0 < b.width ∧ 0 < b.height) ∧
    List.Pairwise (fun b1 b2 => b1.isPacked = true → b2.isPacked = true →
      sepAtLeast 10 b1 b2)
      (packBoxes ⟨120, 100, 10⟩ 300 (fun _ => 0)
        [⟨0, 50, 50, 0, 0, false, false⟩, ⟨1, 50, 50, 0, 0, false, false⟩]).boxes :=
  ⟨by decide, by decide, by decide,
   c1_packed_boxes_separated ⟨120, 100, 10⟩ 300 (fun _ => 0)
     [⟨0, 50, 50, 0, 0, false, false⟩, ⟨1, 50, 50, 0, 0, false, false⟩]
     (by decide) (by decide) (by decide)⟩

/-- C2 (amended): every `packingPaths` entry of a `packBoxes` result (on a
valid input) belongs to a committed box with that id, is nonempty and ends at
the box's committed (x, y); it starts at the dock (0, storageLength) only when
the BFS found it — the greedy fallback path never contains the dock at all. -/
theorem c2_packing_path_endpoints (cfg : WarehouseConfig) (fuel : Nat) (rand : Nat → Nat)
    (boxes : List Box) (hc : 0 ≤ cfg.clearance)
    (hunp : ∀ b ∈ boxes, b.isPacked = false)
    (hdims : ∀ b ∈ boxes, 0 < b.width ∧ 0 < b.height) :
    ∀ bid p, lookupN (packBoxes cfg fuel rand boxes).packingPaths bid = some p →
      ∃ b ∈ (packBoxes cfg fuel rand boxes).boxes, b.isPacked = true ∧ b.id = bid ∧
        p ≠ [] ∧ p.getLast? = some ⟨b.x, b.y⟩ ∧
        (p.head? = some ⟨0, cfg.storageLength⟩ ∨
          (⟨0, cfg.storageLength⟩ : Position) ∉ p) := by
  intro bid p hl
  obtain ⟨j, bb, hjget, hpk, hbid, hrest⟩ :=
    (packBoxes_inv cfg fuel rand boxes hc hunp hdims).pathsVal bid p hl
  exact ⟨bb, List.mem_iff_get?.mpr ⟨j, hjget⟩, hpk, hbid, hrest⟩

/-- Witness for the amended C2 at Scenario A, where the recorded path is the
fallback path from (0, 90) down to the committed position (0, 0). -/
theorem c2_witness :
    ∃ b ∈ (packBoxes ⟨100, 100, 0⟩ 100 (fun _ => 0)
        [(⟨0, 50, 50, 0, 0, false, false⟩ : Box)]).boxes,
      b.isPacked = true ∧ b.id = 0 ∧
      ([⟨0, 90⟩, ⟨0, 80⟩, ⟨0, 70⟩, ⟨0, 60⟩, ⟨0, 50⟩, ⟨0, 40⟩, ⟨0, 30⟩, ⟨0, 20⟩,
        ⟨0, 10⟩, ⟨0, 0⟩] : List Position) ≠ [] ∧
      ([⟨0, 90⟩, ⟨0, 80⟩, ⟨0, 70⟩, ⟨0, 60⟩, ⟨0, 50⟩, ⟨0, 40⟩, ⟨0, 30⟩, ⟨0, 20⟩,
        ⟨0, 10⟩, ⟨0, 0⟩] : List Position).getLast? = some ⟨b.x, b.y⟩ ∧
      (([⟨0, 90⟩, ⟨0, 80⟩, ⟨0, 70⟩, ⟨0, 60⟩, ⟨0, 50⟩, ⟨0, 40⟩, ⟨0, 30⟩, ⟨0, 20⟩,
         ⟨0, 10⟩, ⟨0, 0⟩] : List Position).head? = some ⟨0, 100⟩ ∨
        (⟨0, 100⟩ : Position) ∉ ([⟨0, 90⟩, ⟨0, 80⟩, ⟨0, 70⟩, ⟨0, 60⟩, ⟨0, 50⟩, ⟨0, 40⟩,
          ⟨0, 30⟩, ⟨0, 20⟩, ⟨0, 10⟩, ⟨0, 0⟩] : List Position)) :=
  c2_packing_path_endpoints ⟨100, 100, 0⟩ 100 (fun _ => 0)
    [⟨0, 50, 50, 0, 0, false, false⟩] (by decide) (by decide) (by decide) 0
    [⟨0, 90⟩, ⟨0, 80⟩, ⟨0, 70⟩, ⟨0, 60⟩, ⟨0, 50⟩, ⟨0, 40⟩, ⟨0, 30⟩, ⟨0, 20⟩,
     ⟨0, 10⟩, ⟨0, 0⟩] (by decide)

/-- C7: `packBoxes` totally computes a `PackingResult`, and on a valid input
with unique ids every box left unpacked has no entry in `packingPaths` and no
entry in `retrievalPaths`. -/
theorem c7_unpacked_no_entries (cfg : WarehouseConfig) (fuel : Nat) (rand : Nat → Nat)
    (boxes : List Box) (hc : 0 ≤ cfg.clearance)
    (hunp : ∀ b ∈ boxes, b.isPacked = false)
    (hdims : ∀ b ∈ boxes, 0 < b.width ∧ 0 < b.height)
    (hids : (boxes.map (·.id)).Nodup) :
    ∀ b ∈ (packBoxes cfg fuel rand boxes).boxes, b.isPacked = false →
      lookupN (packBoxes cfg fuel rand boxes).packingPaths b.id = none ∧
      lookupN (packBoxes cfg fuel rand boxes).retrievalPaths b.id = none := by
  intro b hbmem hbunp
  have hInv := packBoxes_inv cfg fuel rand boxes hc hunp hdims
  obtain ⟨jb, hjb⟩ := List.mem_iff_get?.mp hbmem
  have hidsres : ((packBoxes cfg fuel rand boxes).boxes.map (·.id)).Nodup := by
    show ((packLoopGo cfg fuel (fisherYates (List.range boxes.length) rand) 0 boxes.length
      ⟨boxes, [], []⟩).boxes.map (·.id)).Nodup
    rw [hInv.ids]
    exact hids
  constructor
  · rcases hpp : lookupN (packBoxes cfg fuel rand boxes).packingPaths b.id with _ | p
    · rfl
    · obtain ⟨j, bb, hjget, hpkbb, hbid, _⟩ := hInv.pathsVal b.id p hpp
      have hjb' : (packLoopGo cfg fuel (fisherYates (List.range boxes.length) rand) 0
          boxes.length ⟨boxes, [], []⟩).boxes.get? jb = some b := hjb
      have hj1 : ((packBoxes cfg fuel rand boxes).boxes.map (·.id)).get? j = some b.id := by
        rw [List.get?_map]
        show ((packLoopGo cfg fuel (fisherYates (List.range boxes.length) rand) 0 boxes.length
          ⟨boxes, [], []⟩).boxes.get? j).map (·.id) = some b.id
        rw [hjget]
        simp [hbid]
      have hj2 : ((packBoxes cfg fuel rand boxes).boxes.map (·.id)).get? jb = some b.id := by
        rw [List.get?_map, hjb]
        rfl
      have hjj := nodup_get?_inj _ hidsres j jb b.id hj1 hj2
      subst hjj
      rw [hjb'] at hjget
      injection hjget with hjget
      rw [← hjget] at hpkbb
      rw [hbunp] at hpkbb
      exact Bool.noConfusion hpkbb
  · rcases hrp : lookupN (packBoxes cfg fuel rand boxes).retrievalPaths b.id with _ | p
    · rfl
    · obtain ⟨bb, hfind, hpkbb, _⟩ := buildRetrievalPaths_lookup cfg fuel
        (packBoxes cfg fuel rand boxes).boxes
        (fisherYates (List.range boxes.length) rand) b.id p hrp
      have hbbid : bb.id = b.id := by simpa using List.find?_some hfind
      have hbbmem : bb ∈ (packBoxes cfg fuel rand boxes).boxes :=
        List.mem_of_find?_eq_some hfind
      obtain ⟨j, hjget⟩ := List.mem_iff_get?.mp hbbmem
      have hj1 : ((packBoxes cfg fuel rand boxes).boxes.map (·.id)).get? j = some b.id := by
        rw [List.get?_map, hjget]
        simp [hbbid]
      have hj2 : ((packBoxes cfg fuel rand boxes).boxes.map (·.id)).get? jb = some b.id := by
        rw [List.get?_map, hjb]
        rfl
      have hjj := nodup_get?_inj _ hidsres j jb b.id hj1 hj2
      subst hjj
      rw [hjb] at hjget
      injection hjget with hjget
      rw [hjget] at hbunp
      rw [hbunp] at hpkbb
      exact Bool.noConfusion hpkbb

/-- Witness for C7: a box too large for the arena stays unpacked with no
path entries. -/
theorem c7_witness :
    lookupN (packBoxes ⟨20, 20, 0⟩ 50 (fun _ => 0)
      [(⟨0, 50, 50, 0, 0, false, false⟩ : Box)]).packingPaths 0 = none ∧
    lookupN (packBoxes ⟨20, 20, 0⟩ 50 (fun _ => 0)
      [(⟨0, 50, 50, 0, 0, false, false⟩ : Box)]).retrievalPaths 0 = none :=
  c7_unpacked_no_entries ⟨20, 20, 0⟩ 50 (fun _ => 0) [⟨0, 50, 50, 0, 0, false, false⟩]
    (by decide) (by decide) (by decide) (by decide) ⟨0, 50, 50, 0, 0, false, false⟩
    (by decide) (by decide)

/-! ### C8: storage density -/

theorem boxCells_card (b : Box) (hw : 0 ≤ b.width) (hh : 0 ≤ b.height) :
    (boxCells b).card = (b.width * b.height).toNat := by
  obtain ⟨wn, hwn⟩ := Int.eq_ofNat_of_zero_le hw
  obtain ⟨hn, hhn⟩ := Int.eq_ofNat_of_zero_le hh
  unfold boxCells
  rw [Finset.card_product, Int.card_Ico, Int.card_Ico]
  have h1 : b.x + b.width - b.x = b.width := by ring
  have h2 : b.y + b.height - b.y = b.height := by ring
  rw [h1, h2, hwn, hhn, ← Int.natCast_mul, Int.toNat_natCast, Int.toNat_natCast,
    Int.toNat_natCast]

theorem boxCells_subset_arena (cfg : WarehouseConfig) (b : Box)
    (h1 : 0 ≤ b.x) (h2 : b.x + b.width ≤ cfg.storageWidth)
    (h3 : 0 ≤ b.y) (h4 : b.y + b.height ≤ cfg.storageLength) :
    boxCells b ⊆ Finset.Ico 0 cfg.storageWidth ×ˢ Finset.Ico 0 cfg.storageLength := by
  intro c hc
  simp only [boxCells, Finset.mem_product, Finset.mem_Ico] at hc ⊢
  omega

theorem sep_boxCells_disjoint (c : Int) (hc : 0 ≤ c) (a b : Box)
    (h : sepAtLeast c a b) : Disjoint (boxCells a) (boxCells b) := by
  rw [Finset.disjoint_left]
  intro x hxa hxb
  simp only [boxCells, Finset.mem_product, Finset.mem_Ico] at hxa hxb
  unfold sepAtLeast at h
  omega

theorem disjoint_cellsOf (A : Finset (ℤ × ℤ)) (l : List Box) :
    (∀ b ∈ l, Disjoint A (boxCells b)) → Disjoint A (cellsOf l) := by
  induction l with
  | nil => intro _; simp [cellsOf]
  | cons b rest ih =>
    intro h
    show Disjoint A (boxCells b ∪ cellsOf rest)
    rw [Finset.disjoint_union_right]
    exact ⟨h b (List.mem_cons_self b rest),
      ih (fun bb hbb => h bb (List.mem_cons_of_mem _ hbb))⟩

theorem cellsOf_card (l : List Box) :
    List.Pairwise (fun a b => Disjoint (boxCells a) (boxCells b)) l →
      (cellsOf l).card = (l.map (fun b => (boxCells b).card)).sum := by
  induction l with
  | nil => intro _; simp [cellsOf]
  | cons b rest ih =>
    intro hdisj
    rw [List.pairwise_cons] at hdisj
    show (boxCells b ∪ cellsOf rest).card = _
    rw [Finset.card_union_of_disjoint (disjoint_cellsOf _ rest hdisj.1),
      List.map_cons, List.sum_cons, ih hdisj.2]

theorem cellsOf_subset (A : Finset (ℤ × ℤ)) (l : List Box) :
    (∀ b ∈ l, boxCells b ⊆ A) → cellsOf l ⊆ A := by
  induction l with
  | nil => intro _; simp [cellsOf]
  | cons b rest ih =>
    intro h
    show boxCells b ∪ cellsOf rest ⊆ A
    exact Finset.union_subset (h b (List.mem_cons_self b rest))
      (ih (fun bb hbb => h bb (List.mem_cons_of_mem _ hbb)))

/-- Pairwise-separated packed boxes inside the arena cover at most the arena
area: the key counting argument behind the density upper bound. -/
theorem packed_area_le (cfg : WarehouseConfig) (l : List Box)
    (hW : 0 ≤ cfg.storageWidth) (hL : 0 ≤ cfg.storageLength) (hc : 0 ≤ cfg.clearance)
    (hpw : List.Pairwise (packedGuard cfg) l)
    (hbnd : ∀ b ∈ l, b.isPacked = true →
      0 ≤ b.x ∧ b.x + b.width ≤ cfg.storageWidth ∧ 0 ≤ b.y ∧
      b.y + b.height ≤ cfg.storageLength ∧ 0 < b.width ∧ 0 < b.height) :
    ((l.filter (·.isPacked)).map (fun b => b.width * b.height)).sum ≤
      cfg.storageWidth * cfg.storageLength := by
  have hPm : ∀ b ∈ l.filter (·.isPacked), b ∈ l ∧ b.isPacked = true := by
    intro b hb
    have hmf := List.mem_filter.mp hb
    exact ⟨hmf.1, by simpa using hmf.2⟩
  have hpwP : List.Pairwise (packedGuard cfg) (l.filter (·.isPacked)) :=
    List.Pairwise.sublist (List.filter_sublist l) hpw
  have hdisj : List.Pairwise (fun a b => Disjoint (boxCells a) (boxCells b))
      (l.filter (·.isPacked)) := by
    refine List.Pairwise.imp_of_mem ?_ hpwP
    intro a b ha hb hg
    exact sep_boxCells_disjoint cfg.clearance hc a b (hg (hPm a ha).2 (hPm b hb).2)
  have hsub : cellsOf (l.filter (·.isPacked)) ⊆
      Finset.Ico 0 cfg.storageWidth ×ˢ Finset.Ico 0 cfg.storageLength := by
    refine cellsOf_subset _ _ ?_
    intro b hb
    obtain ⟨hbl, hbp⟩ := hPm b hb
    obtain ⟨h1, h2, h3, h4, _, _⟩ := hbnd b hbl hbp
    exact boxCells_subset_arena cfg b h1 h2 h3 h4
  have hcard : ((l.filter (·.isPacked)).map (fun b => (boxCells b).card)).sum ≤
      (cfg.storageWidth * cfg.storageLength).toNat := by
    rw [← cellsOf_card _ hdisj]
    calc (cellsOf (l.filter (·.isPacked))).card
        ≤ (Finset.Ico 0 cfg.storageWidth ×ˢ Finset.Ico 0 cfg.storageLength).card :=
          Finset.card_le_card hsub
      _ = (cfg.storageWidth * cfg.storageLength).toNat := by
          obtain ⟨wn, hwn⟩ := Int.eq_ofNat_of_zero_le hW
          obtain ⟨ln, hln⟩ := Int.eq_ofNat_of_zero_le hL
          rw [Finset.card_product, Int.card_Ico, Int.card_Ico, sub_zero, sub_zero,
            hwn, hln, ← Int.natCast_mul, Int.toNat_natCast, Int.toNat_natCast,
            Int.toNat_natCast]
  have hmapeq : (l.filter (·.isPacked)).map (fun b => b.width * b.height) =
      (l.filter (·.isPacked)).map (fun b => (((boxCells b).card : Nat) : Int)) := by
    refine List.map_congr_left ?_
    intro b hb
    obtain ⟨hbl, hbp⟩ := hPm b hb
    obtain ⟨_, _, _, _, hw, hh⟩ := hbnd b hbl hbp
    rw [boxCells_card b (le_of_lt hw) (le_of_lt hh),
      Int.toNat_of_nonneg (mul_nonneg (le_of_lt hw) (le_of_lt hh))]
  calc ((l.filter (·.isPacked)).map (fun b => b.width * b.height)).sum
      = ((l.filter (·.isPacked)).map (fun b => (((boxCells b).card : Nat) : Int))).sum := by
        rw [hmapeq]
    _ = ((((l.filter (·.isPacked)).map (fun b => (boxCells b).card)).sum : Nat) : Int) := by
        rw [Nat.cast_list_sum, List.map_map]
        rfl
    _ ≤ (((cfg.storageWidth * cfg.storageLength).toNat : Nat) : Int) := by
        exact_mod_cast hcard
    _ = cfg.storageWidth * cfg.storageLength :=
        Int.toNat_of_nonneg (mul_nonneg hW hL)

/-- On a pairwise-separated box list whose packed boxes lie in the arena with
positive dimensions, the density lies in [0, 100]. -/
theorem density_bounds (cfg : WarehouseConfig) (l : List Box)
    (hW : 0 < cfg.storageWidth) (hL : 0 < cfg.storageLength) (hc : 0 ≤ cfg.clearance)
    (hpw : List.Pairwise (packedGuard cfg) l)
    (hbnd : ∀ b ∈ l, b.isPacked = true →
      0 ≤ b.x ∧ b.x + b.width ≤ cfg.storageWidth ∧ 0 ≤ b.y ∧
      b.y + b.height ≤ cfg.storageLength ∧ 0 < b.width ∧ 0 < b.height) :
    0 ≤ calculateStorageDensity cfg l ∧ calculateStorageDensity cfg l ≤ 100 := by
  have harea := packed_area_le cfg l (le_of_lt hW) (le_of_lt hL) hc hpw hbnd
  have htot : (0 : ℚ) < (cfg.storageWidth : ℚ) * (cfg.storageLength : ℚ) := by
    have h1 : (0 : ℚ) < (cfg.storageWidth : ℚ) := by exact_mod_cast hW
    have h2 : (0 : ℚ) < (cfg.storageLength : ℚ) := by exact_mod_cast hL
    exact mul_pos h1 h2
  have hoccInt : ((l.filter (·.isPacked)).map (fun b => ((b.width * b.height : Int) : ℚ))).sum =
      ((((l.filter (·.isPacked)).map (fun b => b.width * b.height)).sum : Int) : ℚ) := by
    rw [Int.cast_list_sum, List.map_map]
    rfl
  have hocc_nonneg :
      (0 : ℚ) ≤ ((l.filter (·.isPacked)).map (fun b => ((b.width * b.height : Int) : ℚ))).sum := by
    refine List.sum_nonneg ?_
    intro x hx
    obtain ⟨b, hb, rfl⟩ := List.mem_map.mp hx
    have hbl : b ∈ l := (List.mem_filter.mp hb).1
    have hbp : b.isPacked = true := by simpa using (List.mem_filter.mp hb).2
    obtain ⟨_, _, _, _, hw, hh⟩ := hbnd b hbl hbp
    have hnn : (0 : Int) ≤ b.width * b.height := mul_nonneg (le_of_lt hw) (le_of_lt hh)
    exact_mod_cast hnn
  have hocc_le :
      ((l.filter (·.isPacked)).map (fun b => ((b.width * b.height : Int) : ℚ))).sum ≤
        (cfg.storageWidth : ℚ) * (cfg.storageLength : ℚ) := by
    rw [hoccInt]
    have hcast : ((((l.filter (·.isPacked)).map (fun b => b.width * b.height)).sum : Int) : ℚ) ≤
        ((cfg.storageWidth * cfg.storageLength : Int) : ℚ) := by exact_mod_cast harea
    simpa using hcast
  constructor
  · show 0 ≤ ((l.filter (·.isPacked)).map (fun b => ((b.width * b.height : Int) : ℚ))).sum /
      ((cfg.storageWidth : ℚ) * (cfg.storageLength : ℚ)) * 100
    exact mul_nonneg (div_nonneg hocc_nonneg (le_of_lt htot)) (by norm_num)
  · show ((l.filter (·.isPacked)).map (fun b => ((b.width * b.height : Int) : ℚ))).sum /
      ((cfg.storageWidth : ℚ) * (cfg.storageLength : ℚ)) * 100 ≤ 100
    have h1 : ((l.filter (·.isPacked)).map (fun b => ((b.width * b.height : Int) : ℚ))).sum /
        ((cfg.storageWidth : ℚ) * (cfg.storageLength : ℚ)) ≤ 1 :=
      (div_le_one htot).mpr hocc_le
    calc ((l.filter (·.isPacked)).map (fun b => ((b.width * b.height : Int) : ℚ))).sum /
        ((cfg.storageWidth : ℚ) * (cfg.storageLength : ℚ)) * 100
        ≤ 1 * 100 := mul_le_mul_of_nonneg_right h1 (by norm_num)
      _ = 100 := by norm_num

/-- C8: under a valid config (positive storage bounds, clearance ≥ 0) the
storage density equals 100 · (sum of width · height over packed boxes) /
(storageWidth · storageLength); it equals 0 when no box is packed (in
particular on empty input); and for every `packBoxes` result on a valid input
it lies in [0, 100]. -/
theorem c8_density (cfg : WarehouseConfig) (hW : 0 < cfg.storageWidth)
    (hL : 0 < cfg.storageLength) (hc : 0 ≤ cfg.clearance) :
    (∀ bs : List Box, calculateStorageDensity cfg bs =
      100 * ((bs.filter (·.isPacked)).map (fun b => ((b.width * b.height : Int) : ℚ))).sum /
        ((cfg.storageWidth : ℚ) * (cfg.storageLength : ℚ))) ∧
    (∀ bs : List Box, (∀ b ∈ bs, b.isPacked = false) →
      calculateStorageDensity cfg bs = 0) ∧
    (∀ (fuel : Nat) (rand : Nat → Nat) (boxes : List Box),
      (∀ b ∈ boxes, b.isPacked = false) →
      (∀ b ∈ boxes, 0 < b.width ∧ 0 < b.height) →
      0 ≤ calculateStorageDensity cfg (packBoxes cfg fuel rand boxes).boxes ∧
      calculateStorageDensity cfg (packBoxes cfg fuel rand boxes).boxes ≤ 100) := by
  refine ⟨?_, ?_, ?_⟩
  · intro bs
    unfold calculateStorageDensity
    ring
  · intro bs hnp
    unfold calculateStorageDensity
    have hfil : bs.filter (·.isPacked) = [] := by
      rw [List.filter_eq_nil_iff]
      intro b hb
      simp [hnp b hb]
    rw [hfil]
    simp
  · intro fuel rand boxes hunp hdims
    have hInv := packBoxes_inv cfg fuel rand boxes hc hunp hdims
    exact density_bounds cfg (packBoxes cfg fuel rand boxes).boxes hW hL hc
      hInv.pairwiseSep hInv.packedBounds

/-- Witness for C8 at a 100 × 100 arena with clearance 0: the empty input has
density 0 and a one-box run has density in [0, 100]. -/
theorem c8_witness :
    (0 : Int) < 100 ∧ (0 : Int) ≤ 0 ∧
    calculateStorageDensity ⟨100, 100, 0⟩ [] = 0 ∧
    (0 ≤ calculateStorageDensity ⟨100, 100, 0⟩
        (packBoxes ⟨100, 100, 0⟩ 100 (fun _ => 0) [⟨0, 50, 50, 0, 0, false, false⟩]).boxes ∧
      calculateStorageDensity ⟨100, 100, 0⟩
        (packBoxes ⟨100, 100, 0⟩ 100 (fun _ => 0) [⟨0, 50, 50, 0, 0, false, false⟩]).boxes ≤
        100) :=
  ⟨by decide, by decide,
   (c8_density ⟨100, 100, 0⟩ (by decide) (by decide) (by decide)).2.1 [] (by simp),
   (c8_density ⟨100, 100, 0⟩ (by decide) (by decide) (by decide)).2.2 100 (fun _ => 0)
     [⟨0, 50, 50, 0, 0, false, false⟩] (by decide) (by decide)⟩

end Warehouse
